import Mathlib

/-!
# ccspellcheck: the bloom filter and its file format

A shallow embedding of `bloomfilter/bloomfilter.go` (the `Bloom` type with `New`, `Add`,
`Contains`, the sizing functions `M` and `K`, the writing half of `BuildBloomFilter` and
`LoadBloomFilter`), followed by the properties established about it.

Conventions of the embedding.

* Go's `int32` and `uint32` values are `Int` and `Nat`; the conversions between them reduce
  modulo `2 ^ 32` explicitly, and a theorem that needs a field to be in the range of its Go type
  says so in a hypothesis.
* A Go function that can return an error or stop with a run-time panic returns
  `Except Fault _`; `Fault.isPanic` tells the two apart.
* A file is the list of its bytes; a reader is the list of bytes not yet consumed.
* The hash objects come from the third-party package `github.com/spaolacci/murmur3`.  A
  `hash.Hash32` value is represented by its seed together with the bytes written since the last
  `Reset`, and `Sum32` is MurmurHash3 (x86, 32 bit) of those bytes.
* `float64` arithmetic (`math.Log`, `math.Pow`, `math.Ceil`) is idealised as exact arithmetic
  over the reals in `M`, `K` and `New`; `rounded.M`, `rounded.K` and `rounded.New` follow the
  same source lines with the rounding of each operation left open within its accuracy.
-/

namespace bloomfilter

/-- One byte of a word or of a file. -/
abbrev Byte := Fin 256

/-- The ways in which a function of the package can fail: the two errors that the readers of the
standard library return, and the run-time panics of the operations used. -/
inductive Fault where
  | EOF
  | ErrUnexpectedEOF
  | divideByZero
  | indexOutOfRange
  | makesliceLenOutOfRange
  deriving DecidableEq, Repr

/-- Whether the fault is a run-time panic (as opposed to a returned `error`). -/
def Fault.isPanic : Fault → Bool
  | .EOF => false
  | .ErrUnexpectedEOF => false
  | .divideByZero => true
  | .indexOutOfRange => true
  | .makesliceLenOutOfRange => true

/-! ## murmur3 (third-party): the 32-bit digest -/

namespace murmur3

def c1_32 : Nat := 0xcc9e2d51

def c2_32 : Nat := 0x1b873593

/-- Rotation to the left of a 32-bit word, `bits.RotateLeft32`. -/
def rotl32 (x r : Nat) : Nat := ((x <<< r) ||| (x >>> (32 - r))) % 2 ^ 32

/-- The scrambling of one 32-bit block `k1` before it is mixed into the running hash. -/
def mixK (k1 : Nat) : Nat := (rotl32 ((k1 * c1_32) % 2 ^ 32) 15 * c2_32) % 2 ^ 32

/-- Body mixing: consumes the complete 4-byte little-endian blocks of the input and returns the
running hash together with the 0 to 3 bytes left over. -/
def bmix (h1 : Nat) : List Byte → Nat × List Byte
  | b0 :: b1 :: b2 :: b3 :: rest =>
    let k1 := b0.val + b1.val * 2 ^ 8 + b2.val * 2 ^ 16 + b3.val * 2 ^ 24
    let h := h1 ^^^ mixK k1
    let h := rotl32 h 13
    let h := (h * 4 + h + 0xe6546b64) % 2 ^ 32
    bmix h rest
  | tail => (h1, tail)

/-- The contribution of the 1 to 3 bytes left over after the last complete block. -/
def tailK : List Byte → Nat
  | [t0] => mixK t0.val
  | [t0, t1] => mixK (t1.val * 2 ^ 8 ^^^ t0.val)
  | [t0, t1, t2] => mixK ((t2.val * 2 ^ 16 ^^^ t1.val * 2 ^ 8) ^^^ t0.val)
  | _ => 0

/-- Final avalanche of the digest. -/
def fmix32 (h : Nat) : Nat :=
  let h := h ^^^ (h >>> 16)
  let h := (h * 0x85ebca6b) % 2 ^ 32
  let h := h ^^^ (h >>> 13)
  let h := (h * 0xc2b2ae35) % 2 ^ 32
  h ^^^ (h >>> 16)

/-- MurmurHash3 x86 32-bit of `data` with the given seed. -/
def sum32 (seed : Nat) (data : List Byte) : Nat :=
  let r := bmix (seed % 2 ^ 32) data
  let h1 := r.1 ^^^ tailK r.2
  let h1 := h1 ^^^ (data.length % 2 ^ 32)
  fmix32 h1

end murmur3

/-- A `hash.Hash32` as the filter uses it: the seed it was created with and the bytes written to
it since the last `Reset`. -/
structure Hash32 where
  seed : Nat
  written : List Byte
  deriving DecidableEq, Repr

/-- Model of `murmur3.New32WithSeed`. -/
def New32WithSeed (seed : Nat) : Hash32 := { seed := seed % 2 ^ 32, written := [] }

/-- Model of `Reset`: forgets what was written, keeps the seed. -/
def Hash32.Reset (h : Hash32) : Hash32 := { h with written := [] }

/-- Model of `Write`: appends to what was written. -/
def Hash32.Write (h : Hash32) (p : List Byte) : Hash32 := { h with written := h.written ++ p }

/-- Model of `Sum32`: the digest of what was written; the state is unchanged. -/
def Hash32.Sum32 (h : Hash32) : Nat := murmur3.sum32 h.seed h.written

/-! ## The filter -/

/-- The type `Bloom`. `M` is an `int32`, `K` a `uint32`. -/
structure Bloom where
  M : Int
  K : Nat
  Bitset : List Bool
  Hashes : List Hash32
  deriving DecidableEq, Repr

/-- Conversion `uint32(m)` of an `int32`. -/
def uint32 (m : Int) : Nat := (m % 2 ^ 32).toNat

/-- The loop of `Add` over the hash functions still to be visited. Returns the bit array and the
hash objects in the state the loop leaves them in. -/
def Add.loop (m : Int) (word : List Byte) : List Hash32 → List Bool →
    Except Fault (List Bool × List Hash32)
  | [], bits => .ok (bits, [])
  | hashFunc :: rest, bits =>
    let hashFunc := (hashFunc.Reset).Write word
    if uint32 m = 0 then .error .divideByZero
    else
      let idx := hashFunc.Sum32 % uint32 m
      if idx < bits.length then
        match Add.loop m word rest (bits.set idx true) with
        | .ok (bits', rest') => .ok (bits', hashFunc :: rest')
        | .error e => .error e
      else .error .indexOutOfRange

/-- The method `Add`. -/
def Add (bloomFilter : Bloom) (word : List Byte) : Except Fault Bloom :=
  match Add.loop bloomFilter.M word bloomFilter.Hashes bloomFilter.Bitset with
  | .ok (bits, hashes) => .ok { bloomFilter with Bitset := bits, Hashes := hashes }
  | .error e => .error e

/-- The loop of `Contains`: the answer, and the hash objects in the state the loop leaves them
in (those after the first failing one are not touched). -/
def Contains.loop (m : Int) (bits : List Bool) (word : List Byte) : List Hash32 →
    Except Fault (Bool × List Hash32)
  | [] => .ok (true, [])
  | hashFunc :: rest =>
    let hashFunc := (hashFunc.Reset).Write word
    if uint32 m = 0 then .error .divideByZero
    else
      let idx := hashFunc.Sum32 % uint32 m
      match bits[idx]? with
      | none => .error .indexOutOfRange
      | some bit =>
        if !bit then .ok (false, hashFunc :: rest)
        else
          match Contains.loop m bits word rest with
          | .ok (r, rest') => .ok (r, hashFunc :: rest')
          | .error e => .error e

/-- The method `Contains`: the answer together with the filter after the call. -/
def Contains (bloomFilter : Bloom) (word : List Byte) : Except Fault (Bool × Bloom) :=
  match Contains.loop bloomFilter.M bloomFilter.Bitset word bloomFilter.Hashes with
  | .ok (r, hashes) => .ok (r, { bloomFilter with Hashes := hashes })
  | .error e => .error e

/-- A run of `Add`, one word after the other, as in the loop of `BuildBloomFilter`. -/
def AddAll (bloomFilter : Bloom) : List (List Byte) → Except Fault Bloom
  | [] => .ok bloomFilter
  | word :: words =>
    match Add bloomFilter word with
    | .ok b => AddAll b words
    | .error e => .error e

/-! ## Sizing and construction

`float64` is idealised as the reals: `math.Log` is the natural logarithm, `math.Pow` the real
power, and products and quotients are exact. For `n ≠ 0` and `p > 0` no infinity or NaN arises in
the Go computation, and this is the domain on which the idealisation is meant. Where the exact
value lies within the rounding error of an integer, the `float64` computation can land on the
other side of it and the ceiling differ by one; the statements that must hold whatever the
rounding are made about `rounded.M`, `rounded.K` and `rounded.New` further down, of which the
definitions of this section are the instance without rounding. The conversion of
a `float64` to an integer type truncates toward zero; for a value that the integer type cannot
represent Go leaves the result to the implementation, and the value used below is the one that
the amd64 compiler produces. -/

/-- Model of `math.Ceil`: the least integer not below `x`, as a float. -/
noncomputable def Ceil (x : ℝ) : ℝ := ((⌈x⌉ : Int) : ℝ)

/-- Truncation toward zero, the rounding of a float-to-integer conversion. -/
noncomputable def trunc (x : ℝ) : Int := if 0 ≤ x then ⌊x⌋ else ⌈x⌉

/-- Conversion `int32(x)` of a `float64`. Out of range: `-2 ^ 31`, as on amd64. -/
noncomputable def int32OfFloat (x : ℝ) : Int :=
  let t := trunc x
  if -2 ^ 31 ≤ t ∧ t < 2 ^ 31 then t else -2 ^ 31

/-- Conversion `uint32(x)` of a `float64`. Out of range: the low 32 bits of the conversion to
`int64`, as on amd64. -/
noncomputable def uint32OfFloat (x : ℝ) : Nat :=
  let t := trunc x
  if 0 ≤ t ∧ t < 2 ^ 32 then t.toNat
  else if -2 ^ 63 ≤ t ∧ t < 2 ^ 63 then (t % 2 ^ 32).toNat
  else 0

/-- The function `M`: the number of bits for `n` items at false-positive rate `p`. -/
noncomputable def M (n : Int) (p : ℝ) : Int :=
  int32OfFloat (Ceil (-1 * (n : ℝ) * Real.log p / (Real.log 2) ^ (2 : ℝ)))

/-- The function `K`: the number of hash functions for `m` bits and `n` items. -/
noncomputable def K (m : Int) (n : Int) : Nat :=
  uint32OfFloat (Ceil ((m : ℝ) * Real.log 2 / (n : ℝ)))

/-- The method `New`. Every field of the receiver is overwritten; `make` panics on a negative
length. -/
noncomputable def New (bloomFilter : Bloom) (n : Int) (p : ℝ) : Except Fault Bloom :=
  let m := M n p
  let k := K m n
  if m < 0 then .error .makesliceLenOutOfRange
  else
    .ok { bloomFilter with
          M := m
          K := k
          Bitset := List.replicate m.toNat false
          Hashes := (List.range k).map New32WithSeed }

/-! ## Sizing and construction with the rounding of float64

The definitions above compute with exact reals. The ones below follow the same source lines
operation by operation and leave room for the rounding of `float64`: a value of type `Float64`
gives the conversion from an integer, the product, the quotient, `math.Log` and `math.Pow`,
each returning its exact result up to a relative error of `2^-50` (IEEE 754 rounding to nearest
is within `2^-53`, and `math.Log` and `math.Pow` are within one unit in the last place,
`2^-52`). These bounds hold of `float64` away from overflow and underflow, which the
computations of `M` and `K` do not reach for `n ≥ 1` and a `float64` `p` with `0 < p < 1`; a
statement proved for every `Float64` therefore holds of the `float64` computation on these
inputs. -/

namespace rounded

/-- The bound on the relative error of one operation. -/
noncomputable def eps : ℝ := 1 / 2 ^ 50

/-- The value `y` is `x` up to the relative error `eps`. -/
def Near (x y : ℝ) : Prop := |y - x| ≤ eps * |x|

/-- An implementation of the `float64` operations that `M` and `K` use. -/
structure Float64 where
  ofInt : Int → ℝ
  mul : ℝ → ℝ → ℝ
  div : ℝ → ℝ → ℝ
  Log : ℝ → ℝ
  Pow : ℝ → ℝ → ℝ
  ofInt_near : ∀ n : Int, Near (n : ℝ) (ofInt n)
  mul_near : ∀ a b : ℝ, Near (a * b) (mul a b)
  div_near : ∀ a b : ℝ, Near (a / b) (div a b)
  Log_near : ∀ x : ℝ, 0 < x → Near (Real.log x) (Log x)
  Pow_near : ∀ x y : ℝ, 0 < x → Near (x ^ y) (Pow x y)

/-- The implementation without rounding, that of the definitions `M` and `K` above. -/
noncomputable def Float64.exact : Float64 where
  ofInt := fun n => (n : ℝ)
  mul := fun a b => a * b
  div := fun a b => a / b
  Log := Real.log
  Pow := fun x y => x ^ y
  ofInt_near := fun n => by
    simp only [Near, sub_self, abs_zero]; exact mul_nonneg (by norm_num [eps]) (abs_nonneg _)
  mul_near := fun a b => by
    simp only [Near, sub_self, abs_zero]; exact mul_nonneg (by norm_num [eps]) (abs_nonneg _)
  div_near := fun a b => by
    simp only [Near, sub_self, abs_zero]; exact mul_nonneg (by norm_num [eps]) (abs_nonneg _)
  Log_near := fun x _ => by
    simp only [Near, sub_self, abs_zero]; exact mul_nonneg (by norm_num [eps]) (abs_nonneg _)
  Pow_near := fun x y _ => by
    simp only [Near, sub_self, abs_zero]; exact mul_nonneg (by norm_num [eps]) (abs_nonneg _)

/-- The function `M`, computed with the operations of `F`. -/
noncomputable def M (F : Float64) (n : Int) (p : ℝ) : Int :=
  int32OfFloat (Ceil (F.div (F.mul (F.mul (-1) (F.ofInt n)) (F.Log p)) (F.Pow (F.Log 2) 2)))

/-- The function `K`, computed with the operations of `F`. -/
noncomputable def K (F : Float64) (m : Int) (n : Int) : Nat :=
  uint32OfFloat (Ceil (F.div (F.mul (F.ofInt m) (F.Log 2)) (F.ofInt n)))

/-- The method `New`, with `M` and `K` computed with the operations of `F`. -/
noncomputable def New (F : Float64) (bloomFilter : Bloom) (n : Int) (p : ℝ) :
    Except Fault Bloom :=
  let m := M F n p
  let k := K F m n
  if m < 0 then .error .makesliceLenOutOfRange
  else
    .ok { bloomFilter with
          M := m
          K := k
          Bitset := List.replicate m.toNat false
          Hashes := (List.range k).map New32WithSeed }

/-- The value `y` lies between `lo * x` and `hi * x`. -/
def Within (lo hi x y : ℝ) : Prop := lo * x ≤ y ∧ y ≤ hi * x

end rounded

/-! ## The file format -/

/-- Conversion `byte(v)`. -/
def byte (v : Nat) : Byte := ⟨v % 256, Nat.mod_lt _ (by decide)⟩

/-- Model of `binary.LittleEndian.PutUint16`. -/
def putUint16 (v : Nat) : List Byte := [byte v, byte (v >>> 8)]

/-- Model of `binary.LittleEndian.PutUint32`. -/
def putUint32 (v : Nat) : List Byte := [byte v, byte (v >>> 8), byte (v >>> 16), byte (v >>> 24)]

/-- Model of `binary.LittleEndian.Uint16` and `Uint32`: the little-endian value of the bytes. -/
def leUint : List Byte → Nat
  | [] => 0
  | b :: bs => b.val + 256 * leUint bs

/-- Conversion `int32(v)` of a `uint32`: two's complement. -/
def int32 (v : Nat) : Int :=
  if v % 2 ^ 32 < 2 ^ 31 then ((v % 2 ^ 32 : Nat) : Int) else ((v % 2 ^ 32 : Nat) : Int) - 2 ^ 32

/-- The identifier `[]byte("CCBF")`. -/
def identifier : List Byte := [67, 67, 66, 70]

/-- The version number written by `BuildBloomFilter`. -/
def version : Nat := 1

/-- The writing half of `BuildBloomFilter` (every write succeeding): the bytes the output file
holds at the end, each write appending to it. -/
def serialize (b : Bloom) : List Byte :=
  let out : List Byte := []
  let out := out ++ identifier
  let out := out ++ putUint16 version
  let out := out ++ putUint32 b.K
  let out := out ++ putUint32 (uint32 b.M)
  b.Bitset.foldl (fun out bit => out ++ [if bit then (1 : Byte) else 0]) out

/-- The zero value `Bloom{}`. -/
def Bloom.zero : Bloom := { M := 0, K := 0, Bitset := [], Hashes := [] }

/-- The function `BuildBloomFilter` on the words of the input file: the bytes written. -/
noncomputable def BuildBloomFilter (words : List (List Byte)) (p : ℝ) :
    Except Fault (List Byte) :=
  match New Bloom.zero (words.length : Int) p with
  | .error e => .error e
  | .ok b =>
    match AddAll b words with
    | .error e => .error e
    | .ok b => .ok (serialize b)

/-- Model of `(*os.File).Read` into a buffer of `n` bytes: `io.EOF` at the end of the file,
otherwise the bytes available, at most `n`. Returns the bytes read and the rest of the file. -/
def fileRead (n : Nat) (file : List Byte) : Except Fault (List Byte × List Byte) :=
  if file.length = 0 ∧ 0 < n then .error .EOF else .ok (file.take n, file.drop n)

/-- Model of `binary.Read` of a fixed-size value of `n` bytes, which reads with `io.ReadFull`:
`io.EOF` when no byte is left, `io.ErrUnexpectedEOF` when fewer than `n` are. -/
def binaryRead (n : Nat) (file : List Byte) : Except Fault (List Byte × List Byte) :=
  if n ≤ file.length then .ok (file.take n, file.drop n)
  else if file.length = 0 then .error .EOF
  else .error .ErrUnexpectedEOF

/-- The loop of `LoadBloomFilter` that reads the bits: `k` iterations left, `i` the loop
variable. -/
def LoadBloomFilter.loop : Nat → Nat → List Byte → List Bool → Except Fault (List Bool)
  | 0, _, _, bits => .ok bits
  | k + 1, i, file, bits =>
    match binaryRead 1 file with
    | .error e => .error e
    | .ok (bs, file) =>
      let byteValue := leUint bs
      if i < bits.length then
        if byteValue = 1 then LoadBloomFilter.loop k (i + 1) file (bits.set i true)
        else LoadBloomFilter.loop k (i + 1) file (bits.set i false)
      else .error .indexOutOfRange

/-- The function `LoadBloomFilter` on the contents of the file. -/
def LoadBloomFilter (file : List Byte) : Except Fault Bloom :=
  match fileRead 4 file with
  | .error e => .error e
  | .ok (_, file) =>
    match binaryRead 2 file with
    | .error e => .error e
    | .ok (_, file) =>
      match binaryRead 4 file with
      | .error e => .error e
      | .ok (kb, file) =>
        match binaryRead 4 file with
        | .error e => .error e
        | .ok (mb, file) =>
          let k := leUint kb
          let m := int32 (leUint mb)
          if m < 0 then .error .makesliceLenOutOfRange
          else
            match LoadBloomFilter.loop m.toNat 0 file (List.replicate m.toNat false) with
            | .error e => .error e
            | .ok bits =>
              .ok { M := m, K := k, Bitset := bits, Hashes := (List.range k).map New32WithSeed }

/-! ## Vocabulary of the statements -/

/-- The index that `Add` and `Contains` compute from one hash object for `word`. -/
def idxOf (m : Int) (word : List Byte) (h : Hash32) : Nat :=
  ((h.Reset).Write word).Sum32 % uint32 m

/-- Setting to true, one after the other, the bits at the listed positions. -/
def setAll (bits : List Bool) (idxs : List Nat) : List Bool :=
  idxs.foldl (fun b i => b.set i true) bits

/-- The `bit_count` field of a file header: the `int32` at offsets 10 to 13. -/
def headerM (file : List Byte) : Int := int32 (leUint ((file.drop 10).take 4))

/-- The `hash_count` field of a file header: the `uint32` at offsets 6 to 9. -/
def headerK (file : List Byte) : Nat := leUint ((file.drop 6).take 4)

/-! ## Sample data -/

/-- The word `cat`. -/
def cat : List Byte := [99, 97, 116]

/-- The word `dog`. -/
def dog : List Byte := [100, 111, 103]

/-- The word `bird`. -/
def bird : List Byte := [98, 105, 114, 100]

/-- A filter of four bits, one of them set, with two hash functions. -/
def sampleFilter : Bloom :=
  { M := 4, K := 2, Bitset := [false, true, false, false],
    Hashes := [New32WithSeed 0, New32WithSeed 1] }

/-- A file whose header announces four bits and which holds three. -/
def truncatedFile : List Byte := [67, 67, 66, 70, 1, 0, 2, 0, 0, 0, 4, 0, 0, 0, 0, 1, 0]

/-- A file that `LoadBloomFilter` accepts although two of its four bit bytes are neither 0
nor 1, and which carries one byte more than its header announces. -/
def lenientFile : List Byte :=
  [67, 67, 66, 70, 1, 0, 2, 0, 0, 0, 4, 0, 0, 0, 0, 1, 2, 255, 9]

/-- The same file as `lenientFile` under another identifier and another version number. -/
def foreignFile : List Byte :=
  [88, 89, 90, 33, 7, 7, 2, 0, 0, 0, 4, 0, 0, 0, 0, 1, 2, 255, 9]

/-- A filter with one bit and one hash function. -/
def oneBitFilter : Bloom :=
  { M := 1, K := 1, Bitset := [false], Hashes := [New32WithSeed 0] }

/-! ## Auxiliary facts about `Add` and `Contains` -/

theorem uint32_of_int32 (m : Int) (h0 : 0 ≤ m) (h32 : m < 2 ^ 31) : uint32 m = m.toNat := by
  unfold uint32
  rw [Int.emod_eq_of_lt h0 (by omega)]

theorem idxOf_eq (m : Int) (word : List Byte) (h : Hash32) :
    idxOf m word h = murmur3.sum32 h.seed word % uint32 m := by
  simp [idxOf, Hash32.Reset, Hash32.Write, Hash32.Sum32]

theorem idxOf_touched (m : Int) (word w : List Byte) (h : Hash32) :
    idxOf m word ((h.Reset).Write w) = idxOf m word h := by
  simp [idxOf_eq, Hash32.Reset, Hash32.Write]

theorem idxOf_lt (m : Int) (word : List Byte) (h : Hash32) (hm : uint32 m ≠ 0) :
    idxOf m word h < uint32 m := by
  unfold idxOf
  exact Nat.mod_lt _ (Nat.pos_of_ne_zero hm)

theorem setAll_length (idxs : List Nat) (bits : List Bool) :
    (setAll bits idxs).length = bits.length := by
  induction idxs generalizing bits with
  | nil => rfl
  | cons i is ih =>
    have h := ih (bits.set i true)
    simpa [setAll] using h

theorem setAll_getElem? (idxs : List Nat) (bits : List Bool) (j : Nat) :
    (setAll bits idxs)[j]? = (bits[j]?).map (fun b => b || decide (j ∈ idxs)) := by
  induction idxs generalizing bits with
  | nil => simp [setAll]
  | cons i is ih =>
    have h := ih (bits.set i true)
    simp only [setAll, List.foldl_cons] at h ⊢
    rw [h, List.getElem?_set]
    by_cases hij : i = j
    · subst hij
      by_cases hlt : i < bits.length
      · simp [hlt, List.getElem?_eq_getElem hlt]
      · simp [hlt, List.getElem?_eq_none (Nat.le_of_not_lt hlt)]
    · have hji : ¬ j = i := fun h => hij h.symm
      simp [hij, hji]

theorem setAll_idem (bits : List Bool) (idxs : List Nat) :
    setAll (setAll bits idxs) idxs = setAll bits idxs := by
  apply List.ext_getElem?
  intro j
  rw [setAll_getElem?, setAll_getElem?]
  cases bits[j]? <;> simp

theorem setAll_mono (bits : List Bool) (idxs : List Nat) (j : Nat)
    (h : bits[j]? = some true) : (setAll bits idxs)[j]? = some true := by
  rw [setAll_getElem?, h]; simp

theorem setAll_hit (bits : List Bool) (idxs : List Nat) (j : Nat) (hj : j < bits.length)
    (hmem : j ∈ idxs) : (setAll bits idxs)[j]? = some true := by
  rw [setAll_getElem?, List.getElem?_eq_getElem hj]; simp [hmem]

theorem Add.loop_eq (m : Int) (word : List Byte) (hm : uint32 m ≠ 0) (hs : List Hash32)
    (bits : List Bool) (hlen : bits.length = uint32 m) :
    Add.loop m word hs bits =
      .ok (setAll bits (hs.map (idxOf m word)), hs.map (fun h => (h.Reset).Write word)) := by
  induction hs generalizing bits with
  | nil => rfl
  | cons h rest ih =>
    have hlt : ((h.Reset).Write word).Sum32 % uint32 m < bits.length := by
      rw [hlen]; exact Nat.mod_lt _ (Nat.pos_of_ne_zero hm)
    have hlen2 : (bits.set (((h.Reset).Write word).Sum32 % uint32 m) true).length = uint32 m := by
      simpa using hlen
    simp only [Add.loop, hm, if_false, hlt, if_true, ih _ hlen2]
    rfl

/-- On a filter with `1 ≤ M < 2^31` and `len(Bitset) = M` the divisor `uint32(M)` is not zero
and the bit array has that many entries. -/
theorem good_of_valid (f : Bloom) (hM : 1 ≤ f.M) (h32 : f.M < 2 ^ 31)
    (hlen : (f.Bitset.length : Int) = f.M) :
    uint32 f.M ≠ 0 ∧ f.Bitset.length = uint32 f.M := by
  rw [uint32_of_int32 f.M (by omega) h32]
  omega

theorem Add_eq (f : Bloom) (word : List Byte) (hm : uint32 f.M ≠ 0)
    (hlen : f.Bitset.length = uint32 f.M) :
    Add f word = .ok { f with
      Bitset := setAll f.Bitset (f.Hashes.map (idxOf f.M word))
      Hashes := f.Hashes.map (fun h => (h.Reset).Write word) } := by
  simp only [Add, Add.loop_eq f.M word hm f.Hashes f.Bitset hlen]

theorem AddAll_spec (ws : List (List Byte)) (f : Bloom) (hm : uint32 f.M ≠ 0)
    (hlen : f.Bitset.length = uint32 f.M) :
    ∃ g, AddAll f ws = .ok g ∧ g.M = f.M ∧ g.K = f.K ∧ g.Bitset.length = f.Bitset.length ∧
      g.Hashes.map (fun h => h.seed) = f.Hashes.map (fun h => h.seed) ∧
      ∀ j : Nat, f.Bitset[j]? = some true → g.Bitset[j]? = some true := by
  induction ws generalizing f with
  | nil => exact ⟨f, rfl, rfl, rfl, rfl, rfl, fun _ h => h⟩
  | cons w ws ih =>
    have e := Add_eq f w hm hlen
    obtain ⟨g, hg, hgM, hgK, hgl, hgs, hgb⟩ := ih
      { f with
        Bitset := setAll f.Bitset (f.Hashes.map (idxOf f.M w))
        Hashes := f.Hashes.map (fun h => (h.Reset).Write w) } hm
      (by simpa [setAll_length] using hlen)
    refine ⟨g, by simp only [AddAll, e, hg], hgM, hgK,
      by simpa [setAll_length] using hgl, ?_, ?_⟩
    · rw [hgs]; simp [Hash32.Reset, Hash32.Write, Function.comp_def]
    · intro j hj
      exact hgb j (setAll_mono _ _ _ hj)

theorem Contains.loop_spec (m : Int) (word : List Byte) (hm : uint32 m ≠ 0) (bits : List Bool)
    (hlen : bits.length = uint32 m) (hs : List Hash32) :
    ∃ r hs2, Contains.loop m bits word hs = .ok (r, hs2) ∧
      (r = true ↔ ∀ (i : Nat) (h : Hash32), hs[i]? = some h → bits[idxOf m word h]? = some true) ∧
      (r = true → hs2 = hs.map (fun h => (h.Reset).Write word)) ∧
      (r = false → ∃ (j : Nat) (h : Hash32), hs[j]? = some h ∧ bits[idxOf m word h]? = some false ∧
        (∀ (i : Nat) (h : Hash32), i < j → hs[i]? = some h → bits[idxOf m word h]? = some true) ∧
        hs2 = (hs.take (j + 1)).map (fun h => (h.Reset).Write word) ++ hs.drop (j + 1)) := by
  induction hs with
  | nil => exact ⟨true, [], rfl, by simp, by simp, by simp⟩
  | cons h rest ih =>
    obtain ⟨r, hs2, e2, hiff, htrue, hfalse⟩ := ih
    have hlt : idxOf m word h < bits.length := by
      rw [hlen]; exact idxOf_lt m word h hm
    have hget : bits[((h.Reset).Write word).Sum32 % uint32 m]? = some (bits[idxOf m word h]) :=
      List.getElem?_eq_getElem hlt
    have hget2 : bits[idxOf m word h]? = some (bits[idxOf m word h]) :=
      List.getElem?_eq_getElem hlt
    simp only [Contains.loop, hm, if_false, hget, e2]
    cases hb : bits[idxOf m word h] with
    | false =>
      rw [hb] at hget2
      refine ⟨false, (h.Reset).Write word :: rest, by simp, ?_, by simp, ?_⟩
      · constructor
        · intro hc; cases hc
        · intro hall
          have := hall 0 h (by simp)
          rw [hget2] at this; cases this
      · intro _
        exact ⟨0, h, by simp, hget2, by intro i h' hi; omega, by simp⟩
    | true =>
      rw [hb] at hget2
      refine ⟨r, (h.Reset).Write word :: hs2, by simp, ?_, ?_, ?_⟩
      · rw [hiff]
        constructor
        · intro hall i h' hi
          cases i with
          | zero => simp at hi; subst hi; exact hget2
          | succ i => exact hall i h' (by simpa using hi)
        · intro hall i h' hi
          exact hall (i + 1) h' (by simpa using hi)
      · intro hr; rw [htrue hr]; simp
      · intro hr
        obtain ⟨j, h', hj, hbit, hbefore, hs2eq⟩ := hfalse hr
        refine ⟨j + 1, h', by simpa using hj, hbit, ?_, by simp [hs2eq]⟩
        intro i h'' hi hi2
        cases i with
        | zero => simp at hi2; subst hi2; exact hget2
        | succ i => exact hbefore i h'' (by omega) (by simpa using hi2)

theorem Contains_bitset (f : Bloom) (word : List Byte) (r : Bool) (g : Bloom)
    (h : Contains f word = .ok (r, g)) : g.M = f.M ∧ g.K = f.K ∧ g.Bitset = f.Bitset := by
  unfold Contains at h
  split at h
  · cases h; exact ⟨rfl, rfl, rfl⟩
  · cases h

theorem seeds_range (hs : List Hash32) (k : Nat)
    (hseed : hs.map (fun h => h.seed) = List.range k) (i : Nat) :
    (∀ h, hs[i]? = some h → h.seed = i ∧ i < k) ∧ (i < k → ∃ h, hs[i]? = some h ∧ h.seed = i) := by
  have e : (hs[i]?).map (fun h => h.seed) = (List.range k)[i]? := by
    rw [← hseed, List.getElem?_map]
  constructor
  · intro h hh
    rw [hh] at e
    by_cases hik : i < k
    · rw [List.getElem?_range hik] at e
      simp at e
      exact ⟨e, hik⟩
    · rw [List.getElem?_eq_none (by simpa using hik)] at e
      simp at e
  · intro hik
    rw [List.getElem?_range hik] at e
    cases hh : hs[i]? with
    | none => rw [hh] at e; simp at e
    | some h =>
      rw [hh] at e
      simp at e
      exact ⟨h, rfl, e⟩

/-! ## The claims -/

/-- C1. No false negatives: on a filter with `M ≥ 1` (an `int32`) and `len(Bitset) = M`, after `Add(w)` and
then `Add` of every word of `ws` (none, one or many), every call returning normally,
`Contains(w)` returns true. -/
theorem no_false_negatives (f : Bloom) (w : List Byte) (ws : List (List Byte))
    (hM : 1 ≤ f.M) (h32 : f.M < 2 ^ 31) (hlen : (f.Bitset.length : Int) = f.M) :
    ∃ g g', AddAll f (w :: ws) = .ok g ∧ Contains g w = .ok (true, g') := by
  obtain ⟨hm, hl⟩ := good_of_valid f hM h32 hlen
  have e := Add_eq f w hm hl
  obtain ⟨g, hg, hgM, _, hgl, hgs, hgb⟩ := AddAll_spec ws
    { f with
      Bitset := setAll f.Bitset (f.Hashes.map (idxOf f.M w))
      Hashes := f.Hashes.map (fun h => (h.Reset).Write w) } hm
    (by simpa [setAll_length] using hl)
  have hgm : uint32 g.M ≠ 0 := by rw [hgM]; exact hm
  have hgl2 : g.Bitset.length = uint32 g.M := by
    rw [hgM, hgl]; simpa [setAll_length] using hl
  obtain ⟨r, hs2, hc, hiff, _, _⟩ := Contains.loop_spec g.M w hgm g.Bitset hgl2 g.Hashes
  have hr : r = true := by
    rw [hiff]
    intro i h hi
    have hmem : h.seed ∈ g.Hashes.map (fun h => h.seed) :=
      List.mem_map.2 ⟨h, List.getElem?_mem hi, rfl⟩
    rw [hgs] at hmem
    simp only [List.map_map, List.mem_map, Function.comp_apply] at hmem
    obtain ⟨h0, hmem0, hseed0⟩ := hmem
    have hidx : idxOf g.M w h = idxOf f.M w h0 := by
      rw [idxOf_eq, idxOf_eq, hgM, ← hseed0]
      simp [Hash32.Reset, Hash32.Write]
    rw [hidx]
    apply hgb
    apply setAll_hit
    · rw [hl]; exact idxOf_lt f.M w h0 hm
    · exact List.mem_map.2 ⟨h0, hmem0, rfl⟩
  subst hr
  refine ⟨g, { g with Hashes := hs2 }, by simp only [AddAll, e, hg], ?_⟩
  simp only [Contains, hc]

/-- C6. `Add` is idempotent: on a filter with `M ≥ 1` (an `int32`) and `len(Bitset) = M`, `Add(w)` returns
normally, a second `Add(w)` returns normally too, and the bit array after the second call is
the bit array after the first. -/
theorem Add_idempotent (f : Bloom) (w : List Byte)
    (hM : 1 ≤ f.M) (h32 : f.M < 2 ^ 31) (hlen : (f.Bitset.length : Int) = f.M) :
    ∃ g1 g2, Add f w = .ok g1 ∧ Add g1 w = .ok g2 ∧ g2.Bitset = g1.Bitset := by
  obtain ⟨hm, hl⟩ := good_of_valid f hM h32 hlen
  refine ⟨_, _, Add_eq f w hm hl, Add_eq _ w hm (by simpa [setAll_length] using hl), ?_⟩
  simp only [List.map_map]
  have : (idxOf f.M w ∘ fun h => (h.Reset).Write w) = idxOf f.M w := by
    funext h; exact idxOf_touched f.M w w h
  rw [this, setAll_idem]

/-- C7. Insertion is monotonic: on a filter with `M ≥ 1` (an `int32`) and `len(Bitset) = M`, `Add(w)` returns
normally and every bit that was true before is true after; `Contains(w)` returns normally and
leaves the bit array as it was. -/
theorem bits_never_cleared (f : Bloom) (w : List Byte)
    (hM : 1 ≤ f.M) (h32 : f.M < 2 ^ 31) (hlen : (f.Bitset.length : Int) = f.M) :
    (∃ g, Add f w = .ok g ∧
      ∀ i : Nat, (i : Int) < f.M → f.Bitset[i]? = some true → g.Bitset[i]? = some true) ∧
    (∃ r g, Contains f w = .ok (r, g) ∧ g.Bitset = f.Bitset) := by
  obtain ⟨hm, hl⟩ := good_of_valid f hM h32 hlen
  constructor
  · exact ⟨_, Add_eq f w hm hl, fun i _ hi => setAll_mono _ _ _ hi⟩
  · obtain ⟨r, hs2, hc, _⟩ := Contains.loop_spec f.M w hm f.Bitset hl f.Hashes
    exact ⟨r, { f with Hashes := hs2 }, by simp only [Contains, hc], rfl⟩

/-- C8. `Add` leaves the parameters alone: on a filter with `M ≥ 1` (an `int32`) and
`len(Bitset) = M`,
`Add(w)` returns normally and `M`, `K`, the length of the bit array and the number of hash
functions are what they were. -/
theorem Add_frame (f : Bloom) (w : List Byte)
    (hM : 1 ≤ f.M) (h32 : f.M < 2 ^ 31) (hlen : (f.Bitset.length : Int) = f.M) :
    ∃ g, Add f w = .ok g ∧ g.M = f.M ∧ g.K = f.K ∧ g.Bitset.length = f.Bitset.length ∧
      g.Hashes.length = f.Hashes.length := by
  obtain ⟨hm, hl⟩ := good_of_valid f hM h32 hlen
  exact ⟨_, Add_eq f w hm hl, rfl, rfl, by simp [setAll_length], by simp⟩

/-- C9. `Contains` is the conjunction over the hash functions: on a filter with `M ≥ 1` (an
`int32`), `len(Bitset) = M` and hash functions seeded `0 .. K-1`, `Contains(w)` returns normally; it
returns true exactly when for every `i < K` the bit at `hash_i(w) mod M` is true; and when it
returns false it has stopped at the first `j` whose bit is false, the hash objects after `j`
not having been used. -/
theorem Contains_iff_all_bits (f : Bloom) (w : List Byte)
    (hM : 1 ≤ f.M) (h32 : f.M < 2 ^ 31) (hlen : (f.Bitset.length : Int) = f.M)
    (hseed : f.Hashes.map (fun h => h.seed) = List.range f.K) :
    ∃ r g, Contains f w = .ok (r, g) ∧
      (r = true ↔
        ∀ i : Nat, i < f.K → f.Bitset[murmur3.sum32 i w % f.M.toNat]? = some true) ∧
      (r = false → ∃ j : Nat, j < f.K ∧
        f.Bitset[murmur3.sum32 j w % f.M.toNat]? = some false ∧
        (∀ i : Nat, i < j → f.Bitset[murmur3.sum32 i w % f.M.toNat]? = some true) ∧
        g.Hashes = (f.Hashes.take (j + 1)).map (fun h => (h.Reset).Write w) ++
          f.Hashes.drop (j + 1)) := by
  obtain ⟨hm, hl⟩ := good_of_valid f hM h32 hlen
  have hu : uint32 f.M = f.M.toNat := uint32_of_int32 f.M (by omega) h32
  obtain ⟨r, hs2, hc, hiff, _, hfalse⟩ := Contains.loop_spec f.M w hm f.Bitset hl f.Hashes
  have key : ∀ (i : Nat) (h : Hash32), f.Hashes[i]? = some h →
      idxOf f.M w h = murmur3.sum32 i w % f.M.toNat := by
    intro i h hi
    rw [idxOf_eq, hu, ((seeds_range f.Hashes f.K hseed i).1 h hi).1]
  refine ⟨r, { f with Hashes := hs2 }, by simp only [Contains, hc], ?_, ?_⟩
  · rw [hiff]
    constructor
    · intro hall i hi
      obtain ⟨h, hh, _⟩ := (seeds_range f.Hashes f.K hseed i).2 hi
      rw [← key i h hh]
      exact hall i h hh
    · intro hall i h hi
      rw [key i h hi]
      exact hall i ((seeds_range f.Hashes f.K hseed i).1 h hi).2
  · intro hr
    obtain ⟨j, h, hj, hbit, hbefore, hs2eq⟩ := hfalse hr
    refine ⟨j, ((seeds_range f.Hashes f.K hseed j).1 h hj).2, ?_, ?_, hs2eq⟩
    · rw [← key j h hj]; exact hbit
    · intro i hi
      have hjk := ((seeds_range f.Hashes f.K hseed j).1 h hj).2
      obtain ⟨h', hh', _⟩ := (seeds_range f.Hashes f.K hseed i).2 (by omega)
      rw [← key i h' hh']
      exact hbefore i h' hi hh'

/-! ## Auxiliary facts about the file format -/

theorem foldl_append_singleton (g : Bool → Byte) (l : List Bool) (acc : List Byte) :
    l.foldl (fun out bit => out ++ [g bit]) acc = acc ++ l.map g := by
  induction l generalizing acc with
  | nil => simp
  | cons b l ih => simp [ih]

theorem serialize_eq (b : Bloom) :
    serialize b = identifier ++ putUint16 version ++ putUint32 b.K ++ putUint32 (uint32 b.M) ++
      b.Bitset.map (fun bit => if bit then (1 : Byte) else 0) := by
  unfold serialize
  simp only [List.nil_append]
  exact foldl_append_singleton (fun bit => if bit then (1 : Byte) else 0) b.Bitset _

theorem leUint_putUint32 (v : Nat) : leUint (putUint32 v) = v % 2 ^ 32 := by
  simp only [putUint32, leUint, byte, Nat.shiftRight_eq_div_pow]
  omega

theorem int32_uint32 (m : Int) (h0 : -2 ^ 31 ≤ m) (h1 : m < 2 ^ 31) : int32 (uint32 m) = m := by
  unfold int32 uint32
  have hmod : ((m % 2 ^ 32).toNat % 2 ^ 32 : Nat) = (m % 2 ^ 32).toNat := by
    apply Nat.mod_eq_of_lt
    omega
  rw [hmod]
  split <;> omega

theorem take_succ_set (l : List Bool) (i : Nat) (v : Bool) (h : i < l.length) :
    (l.set i v).take (i + 1) = l.take i ++ [v] := by
  induction l generalizing i with
  | nil => simp at h
  | cons a l ih =>
    cases i with
    | zero => simp
    | succ i => simp [ih i (by simpa using h)]

theorem LoadBloomFilter.loop_ok (k : Nat) (i : Nat) (file : List Byte) (bits : List Bool)
    (hb : bits.length = i + k) (hf : k ≤ file.length) :
    LoadBloomFilter.loop k i file bits =
      .ok (bits.take i ++ (file.take k).map (fun b => decide (b.val = 1))) := by
  induction k generalizing i file bits with
  | zero => simp [LoadBloomFilter.loop, List.take_of_length_le (Nat.le_of_eq hb)]; omega
  | succ k ih =>
    cases file with
    | nil => simp at hf
    | cons b rest =>
      have hi : i < bits.length := by omega
      have hr : k ≤ rest.length := by simpa using hf
      simp only [LoadBloomFilter.loop, binaryRead, List.length_cons, Nat.le_add_left, if_true,
        List.take_succ_cons, List.take_zero, List.drop_succ_cons, List.drop_zero, leUint,
        Nat.mul_zero, Nat.add_zero, hi]
      by_cases hb1 : b.val = 1
      · simp only [hb1, if_true]
        rw [ih (i + 1) rest (bits.set i true) (by simp; omega) hr, take_succ_set bits i true hi]
        simp [hb1]
      · simp only [hb1, if_false]
        rw [ih (i + 1) rest (bits.set i false) (by simp; omega) hr, take_succ_set bits i false hi]
        simp [hb1]

theorem LoadBloomFilter.loop_short (k : Nat) (i : Nat) (file : List Byte) (bits : List Bool)
    (hb : bits.length = i + k) (hf : file.length < k) :
    LoadBloomFilter.loop k i file bits = .error .EOF := by
  induction k generalizing i file bits with
  | zero => simp at hf
  | succ k ih =>
    cases file with
    | nil => simp [LoadBloomFilter.loop, binaryRead]
    | cons b rest =>
      have hi : i < bits.length := by omega
      have hr : rest.length < k := by simpa using hf
      simp only [LoadBloomFilter.loop, binaryRead, List.length_cons, Nat.le_add_left, if_true,
        List.take_succ_cons, List.take_zero, List.drop_succ_cons, List.drop_zero, leUint,
        Nat.mul_zero, Nat.add_zero, hi]
      by_cases hb1 : b.val = 1
      · simp only [hb1, if_true]
        exact ih (i + 1) rest (bits.set i true) (by simp; omega) hr
      · simp only [hb1, if_false]
        exact ih (i + 1) rest (bits.set i false) (by simp; omega) hr

theorem binaryRead_ok (n : Nat) (file : List Byte) (h : n ≤ file.length) :
    binaryRead n file = .ok (file.take n, file.drop n) := by
  simp [binaryRead, h]

theorem binaryRead_err (n : Nat) (file : List Byte) (h : file.length < n) :
    binaryRead n file = .error .EOF ∨ binaryRead n file = .error .ErrUnexpectedEOF := by
  have h' : ¬ n ≤ file.length := by omega
  unfold binaryRead
  by_cases h0 : file.length = 0
  · left; rw [if_neg h', if_pos h0]
  · right; rw [if_neg h', if_neg h0]

theorem LoadBloomFilter_of_header (file : List Byte) (h : 14 ≤ file.length) :
    LoadBloomFilter file =
      if headerM file < 0 then .error .makesliceLenOutOfRange
      else
        match LoadBloomFilter.loop (headerM file).toNat 0 (file.drop 14)
            (List.replicate (headerM file).toNat false) with
        | .error e => .error e
        | .ok bits =>
          .ok { M := headerM file, K := headerK file, Bitset := bits,
                Hashes := (List.range (headerK file)).map New32WithSeed } := by
  have h0 : ¬ (file.length = 0 ∧ 0 < 4) := by omega
  have h1 : 2 ≤ (List.drop 4 file).length := by simp; omega
  have h2 : 4 ≤ (List.drop 2 (List.drop 4 file)).length := by simp; omega
  have h3 : 4 ≤ (List.drop 4 (List.drop 2 (List.drop 4 file))).length := by simp; omega
  unfold LoadBloomFilter
  simp only [fileRead, h0, if_false]
  rw [binaryRead_ok 2 _ h1]
  simp only []
  rw [binaryRead_ok 4 _ h2]
  simp only []
  rw [binaryRead_ok 4 _ h3]
  simp only [headerM, headerK, List.drop_drop]

theorem LoadBloomFilter_short (file : List Byte) (h : file.length < 14) :
    LoadBloomFilter file = .error .EOF ∨ LoadBloomFilter file = .error .ErrUnexpectedEOF := by
  unfold LoadBloomFilter
  by_cases h0 : file.length = 0
  · left; simp [fileRead, h0]
  · have h0' : ¬ (file.length = 0 ∧ 0 < 4) := by omega
    simp only [fileRead, h0', if_false]
    by_cases h1 : 2 ≤ (List.drop 4 file).length
    · rw [binaryRead_ok 2 _ h1]
      simp only []
      by_cases h2 : 4 ≤ (List.drop 2 (List.drop 4 file)).length
      · rw [binaryRead_ok 4 _ h2]
        simp only []
        have h3 : (List.drop 4 (List.drop 2 (List.drop 4 file))).length < 4 := by
          simp; omega
        rcases binaryRead_err 4 _ h3 with e | e <;> rw [e] <;> simp
      · rcases binaryRead_err 4 _ (Nat.lt_of_not_le h2) with e | e <;> rw [e] <;> simp
    · rcases binaryRead_err 2 _ (Nat.lt_of_not_le h1) with e | e <;> rw [e] <;> simp

/-! ## Auxiliary facts about the sizing functions -/

theorem trunc_intCast (z : Int) : trunc (z : ℝ) = z := by
  unfold trunc
  split <;> simp

theorem int32OfFloat_Ceil (x : ℝ) (h1 : -2 ^ 31 ≤ ⌈x⌉) (h2 : ⌈x⌉ < 2 ^ 31) :
    int32OfFloat (Ceil x) = ⌈x⌉ := by
  simp only [int32OfFloat, Ceil, trunc_intCast]
  rw [if_pos ⟨h1, h2⟩]

theorem int32OfFloat_Ceil_big (x : ℝ) (h : 2 ^ 31 ≤ ⌈x⌉) :
    int32OfFloat (Ceil x) = -2 ^ 31 := by
  simp only [int32OfFloat, Ceil, trunc_intCast]
  rw [if_neg (by omega)]

theorem uint32OfFloat_Ceil (x : ℝ) (h1 : 0 ≤ ⌈x⌉) (h2 : ⌈x⌉ < 2 ^ 32) :
    uint32OfFloat (Ceil x) = ⌈x⌉.toNat := by
  simp only [uint32OfFloat, Ceil, trunc_intCast]
  rw [if_pos ⟨h1, h2⟩]

theorem log_two_pos : 0 < Real.log 2 := Real.log_pos (by norm_num)

theorem log_two_sq_pos : 0 < Real.log 2 ^ (2 : ℝ) := by
  rw [Real.rpow_two]
  have := log_two_pos
  positivity

theorem log_two_lt_one : Real.log 2 < 1 := by
  have := Real.log_two_lt_d9
  linarith

/-- The exact value of which `M n p` is the ceiling is positive for `n > 0` and `0 < p < 1`. -/
theorem M_arg_pos (n : Int) (p : ℝ) (hn : 0 < n) (hp0 : 0 < p) (hp1 : p < 1) :
    0 < -1 * (n : ℝ) * Real.log p / Real.log 2 ^ (2 : ℝ) := by
  have hlog : Real.log p < 0 := Real.log_neg hp0 hp1
  have hn' : (0 : ℝ) < n := by exact_mod_cast hn
  apply div_pos _ log_two_sq_pos
  nlinarith

theorem M_of_fits (n : Int) (p : ℝ) (hn : 0 < n) (hp0 : 0 < p) (hp1 : p < 1)
    (hfit : -1 * (n : ℝ) * Real.log p / Real.log 2 ^ (2 : ℝ) ≤ 2 ^ 31 - 1) :
    M n p = ⌈-1 * (n : ℝ) * Real.log p / Real.log 2 ^ (2 : ℝ)⌉ ∧ 1 ≤ M n p ∧ M n p < 2 ^ 31 := by
  have hpos := M_arg_pos n p hn hp0 hp1
  have h1 : 0 < ⌈-1 * (n : ℝ) * Real.log p / Real.log 2 ^ (2 : ℝ)⌉ := Int.ceil_pos.2 hpos
  have h2 : ⌈-1 * (n : ℝ) * Real.log p / Real.log 2 ^ (2 : ℝ)⌉ ≤ 2 ^ 31 - 1 := by
    apply Int.ceil_le.2
    have h := hfit
    norm_num at h ⊢
    exact h
  have e : M n p = ⌈-1 * (n : ℝ) * Real.log p / Real.log 2 ^ (2 : ℝ)⌉ :=
    int32OfFloat_Ceil _ (by omega) (by omega)
  rw [e]
  exact ⟨rfl, by omega, by omega⟩

theorem K_of_pos (m n : Int) (hm : 1 ≤ m) (hm32 : m < 2 ^ 31) (hn : 0 < n) :
    K m n = ⌈(m : ℝ) * Real.log 2 / (n : ℝ)⌉.toNat ∧ 1 ≤ K m n := by
  have hn' : (1 : ℝ) ≤ n := by exact_mod_cast hn
  have hm' : (1 : ℝ) ≤ m := by exact_mod_cast hm
  have hl := log_two_pos
  have hl1 := log_two_lt_one
  have hpos : 0 < (m : ℝ) * Real.log 2 / (n : ℝ) := by positivity
  have hle : (m : ℝ) * Real.log 2 / (n : ℝ) ≤ m := by
    rw [div_le_iff₀ (by linarith)]
    nlinarith
  have h1 : 0 < ⌈(m : ℝ) * Real.log 2 / (n : ℝ)⌉ := Int.ceil_pos.2 hpos
  have h2 : ⌈(m : ℝ) * Real.log 2 / (n : ℝ)⌉ ≤ m := Int.ceil_le.2 hle
  have e : K m n = ⌈(m : ℝ) * Real.log 2 / (n : ℝ)⌉.toNat :=
    uint32OfFloat_Ceil _ (by omega) (by omega)
  rw [e]
  exact ⟨rfl, by omega⟩

theorem log_one_over_p015 : Real.log 0.15 = -Real.log (20 / 3) := by
  rw [← Real.log_inv]
  norm_num

theorem log_20_3_lower : 13 * Real.log 2 < 5 * Real.log (20 / 3) := by
  have h : Real.log ((2 : ℝ) ^ 13) < Real.log ((20 / 3 : ℝ) ^ 5) :=
    Real.log_lt_log (by norm_num) (by norm_num)
  rw [Real.log_pow, Real.log_pow] at h
  exact_mod_cast h

theorem log_20_3_upper : 4 * Real.log (20 / 3) < 11 * Real.log 2 := by
  have h : Real.log ((20 / 3 : ℝ) ^ 4) < Real.log ((2 : ℝ) ^ 11) :=
    Real.log_lt_log (by norm_num) (by norm_num)
  rw [Real.log_pow, Real.log_pow] at h
  exact_mod_cast h

theorem M_arg_3_p015 :
    11 < -1 * ((3 : Int) : ℝ) * Real.log 0.15 / Real.log 2 ^ (2 : ℝ) ∧
      -1 * ((3 : Int) : ℝ) * Real.log 0.15 / Real.log 2 ^ (2 : ℝ) ≤ 12 := by
  have hl := Real.log_two_gt_d9
  have hu := Real.log_two_lt_d9
  have h1 := log_20_3_lower
  have h2 := log_20_3_upper
  have hsq : (0 : ℝ) < Real.log 2 ^ 2 := by positivity
  rw [Real.rpow_two, log_one_over_p015]
  push_cast
  constructor
  · rw [lt_div_iff₀ hsq]
    nlinarith
  · rw [div_le_iff₀ hsq]
    nlinarith

theorem M_3_p015 : M 3 0.15 = 12 := by
  have hc : ⌈-1 * ((3 : Int) : ℝ) * Real.log 0.15 / Real.log 2 ^ (2 : ℝ)⌉ = 12 := by
    rw [Int.ceil_eq_iff]
    have h := M_arg_3_p015
    constructor
    · have := h.1; push_cast at this ⊢; linarith
    · have := h.2; push_cast at this ⊢; linarith
  unfold M
  rw [int32OfFloat_Ceil _ (by rw [hc]; norm_num) (by rw [hc]; norm_num), hc]

theorem K_12_3 : K 12 3 = 3 := by
  have hl := Real.log_two_gt_d9
  have hu := Real.log_two_lt_d9
  have hc : ⌈((12 : Int) : ℝ) * Real.log 2 / ((3 : Int) : ℝ)⌉ = 3 := by
    rw [Int.ceil_eq_iff]
    push_cast
    constructor
    · rw [lt_div_iff₀ (by norm_num)]
      linarith
    · rw [div_le_iff₀ (by norm_num)]
      linarith
  unfold K
  rw [uint32OfFloat_Ceil _ (by rw [hc]; norm_num) (by rw [hc]; norm_num), hc]
  rfl

theorem M_600000000_p015 : M 600000000 0.15 = -2 ^ 31 := by
  have hl := log_two_pos
  have hu := Real.log_two_lt_d9
  have h1 := log_20_3_lower
  have hsq : (0 : ℝ) < Real.log 2 ^ 2 := by positivity
  unfold M
  apply int32OfFloat_Ceil_big
  have hx : ((2 ^ 31 - 1 : Int) : ℝ) <
      -1 * ((600000000 : Int) : ℝ) * Real.log 0.15 / Real.log 2 ^ (2 : ℝ) := by
    rw [Real.rpow_two, log_one_over_p015, lt_div_iff₀ hsq]
    push_cast
    nlinarith
  have := Int.lt_ceil.2 hx
  omega

theorem serialize_split (f : Bloom) :
    14 ≤ (serialize f).length ∧ headerK (serialize f) = f.K % 2 ^ 32 ∧
      headerM (serialize f) = int32 (uint32 f.M) ∧
      (serialize f).drop 14 = f.Bitset.map (fun bit => if bit then (1 : Byte) else 0) := by
  have e := serialize_eq f
  have hk := leUint_putUint32 f.K
  have hm := leUint_putUint32 (uint32 f.M)
  simp only [identifier, putUint16, putUint32, List.cons_append, List.nil_append] at e hk hm
  rw [e]
  refine ⟨by simp, ?_, ?_, by simp⟩
  · simpa [headerK] using hk
  · have : int32 (uint32 f.M % 2 ^ 32) = int32 (uint32 f.M) := by
      simp [int32]
    rw [← this, ← hm]
    simp [headerM]

theorem map_bit_byte (bits : List Bool) :
    (bits.map (fun bit => if bit then (1 : Byte) else 0)).map (fun b => decide (b.val = 1)) =
      bits := by
  induction bits with
  | nil => rfl
  | cons b bs ih => cases b <;> simp [ih]

/-- C2. Round trip: for a filter whose fields are in the range of their types (`K` a `uint32`,
`M` an `int32`) with `M ≥ 0` and `len(Bitset) = M`, `LoadBloomFilter` accepts the bytes that
`BuildBloomFilter` writes for it and returns a filter with the same `M`, the same `K` and the
same bit array. -/
theorem load_serialize_roundtrip (f : Bloom) (hM : 0 ≤ f.M) (h32 : f.M < 2 ^ 31)
    (hK : f.K < 2 ^ 32) (hlen : (f.Bitset.length : Int) = f.M) :
    ∃ g, LoadBloomFilter (serialize f) = .ok g ∧ g.M = f.M ∧ g.K = f.K ∧
      g.Bitset = f.Bitset := by
  obtain ⟨h14, hk, hm, hd⟩ := serialize_split f
  rw [int32_uint32 f.M (by omega) h32] at hm
  rw [Nat.mod_eq_of_lt hK] at hk
  have hn : f.M.toNat = f.Bitset.length := by omega
  have hloop := LoadBloomFilter.loop_ok f.M.toNat 0 ((serialize f).drop 14)
    (List.replicate f.M.toNat false) (by simp) (by rw [hd]; simp [hn])
  rw [hd, hn] at hloop
  simp only [List.take_zero, List.nil_append] at hloop
  rw [List.take_of_length_le (by simp), map_bit_byte] at hloop
  rw [LoadBloomFilter_of_header _ h14, hm, hk, if_neg (by omega), hd, hn, hloop]
  exact ⟨_, rfl, rfl, rfl, by simp⟩

/-- C3. Byte-exact layout: for a filter whose fields are in the range of their types and with
`len(Bitset) = M`, the bytes written are `"CCBF"`, then `1, 0` (version 1 on two bytes, low byte
first), then the four bytes of `K` and the four bytes of `M`, low byte first, then one byte per
bit in array order, `1` for true and `0` for false: `14 + M` bytes in all. -/
theorem serialize_layout (f : Bloom) (h32 : f.M < 2 ^ 31) (hK : f.K < 2 ^ 32)
    (hlen : (f.Bitset.length : Int) = f.M) :
    serialize f =
        [67, 67, 66, 70] ++ [1, 0] ++
        [byte f.K, byte (f.K / 2 ^ 8), byte (f.K / 2 ^ 16), byte (f.K / 2 ^ 24)] ++
        [byte f.M.toNat, byte (f.M.toNat / 2 ^ 8), byte (f.M.toNat / 2 ^ 16),
          byte (f.M.toNat / 2 ^ 24)] ++
        f.Bitset.map (fun bit => if bit then (1 : Byte) else 0) ∧
      leUint [byte f.K, byte (f.K / 2 ^ 8), byte (f.K / 2 ^ 16), byte (f.K / 2 ^ 24)] = f.K ∧
      (leUint [byte f.M.toNat, byte (f.M.toNat / 2 ^ 8), byte (f.M.toNat / 2 ^ 16),
          byte (f.M.toNat / 2 ^ 24)] : Int) = f.M ∧
      ((serialize f).length : Int) = 14 + f.M := by
  have hu : uint32 f.M = f.M.toNat := uint32_of_int32 f.M (by omega) h32
  have e := serialize_eq f
  have hk := leUint_putUint32 f.K
  have hm := leUint_putUint32 f.M.toNat
  rw [Nat.mod_eq_of_lt hK] at hk
  rw [Nat.mod_eq_of_lt (by omega)] at hm
  simp only [putUint32, Nat.shiftRight_eq_div_pow] at hk hm
  rw [hu] at e
  simp only [identifier, version, putUint16, putUint32, Nat.shiftRight_eq_div_pow] at e
  refine ⟨?_, hk, by rw [hm]; omega, ?_⟩
  · rw [e]; rfl
  · rw [e]; simp; omega

/-- C4. Truncated input is rejected: on a file too short for the 14-byte header, or shorter than
`14 + bit_count` for the `bit_count` of its header, `LoadBloomFilter` returns an error (so no
filter), and that outcome is a returned error, not a run-time panic. -/
theorem load_truncated_rejected (file : List Byte)
    (h : file.length < 14 ∨ (file.length : Int) < 14 + headerM file) :
    ∃ e, LoadBloomFilter file = .error e ∧ e.isPanic = false := by
  by_cases h14 : file.length < 14
  · rcases LoadBloomFilter_short file h14 with e | e
    · exact ⟨_, e, rfl⟩
    · exact ⟨_, e, rfl⟩
  · have hlt : (file.length : Int) < 14 + headerM file := by
      rcases h with h | h
      · exact absurd h h14
      · exact h
    have hloop := LoadBloomFilter.loop_short (headerM file).toNat 0 (file.drop 14)
      (List.replicate (headerM file).toNat false) (by simp) (by simp; omega)
    rw [LoadBloomFilter_of_header file (by omega), if_neg (by omega), hloop]
    exact ⟨_, rfl, rfl⟩

/-- C10, the claim as stated fails: `M(3, 0.15)` is not 8. -/
theorem sizing_3_p015_not_8_2 : ¬ (M 3 0.15 = 8 ∧ K 8 3 = 2) := by
  rw [M_3_p015]
  rintro ⟨h, _⟩
  cases h

/-- C10, amended. For the three words `cat`, `dog`, `bird` and `p = 0.15`: `M(3, 0.15) = 12`
and `K(12, 3) = 3`; `New(3, 0.15)` returns a filter with these values; and `BuildBloomFilter`
writes a file of `14 + 12` bytes whose header holds hash count 3 and bit count 12. -/
theorem build_cat_dog_bird :
    M 3 0.15 = 12 ∧ K 12 3 = 3 ∧
      (∃ b, New Bloom.zero 3 0.15 = .ok b ∧ b.M = 12 ∧ b.K = 3) ∧
      ∃ out, BuildBloomFilter [cat, dog, bird] 0.15 = .ok out ∧
        headerK out = 3 ∧ headerM out = 12 ∧ out.length = 14 + 12 := by
  have hNew : New Bloom.zero 3 0.15 =
      .ok { M := 12, K := 3, Bitset := List.replicate 12 false,
            Hashes := (List.range 3).map New32WithSeed } := by
    simp only [New, M_3_p015, K_12_3]
    rfl
  refine ⟨M_3_p015, K_12_3, ⟨_, hNew, rfl, rfl⟩, ?_⟩
  have h3 : (([cat, dog, bird].length : Nat) : Int) = 3 := rfl
  have e : BuildBloomFilter [cat, dog, bird] 0.15 =
      .ok [67, 67, 66, 70, 1, 0, 3, 0, 0, 0, 12, 0, 0, 0,
           0, 0, 1, 1, 0, 1, 1, 1, 1, 0, 0, 1] := by
    unfold BuildBloomFilter
    rw [h3, hNew]
    rfl
  exact ⟨_, e, by decide, by decide, by decide⟩

/-! ## Instances of the theorems on sample data -/

theorem no_false_negatives_witness :
    (1 ≤ sampleFilter.M ∧ sampleFilter.M < 2 ^ 31 ∧
        (sampleFilter.Bitset.length : Int) = sampleFilter.M) ∧
      ∃ g g', AddAll sampleFilter (cat :: [dog, bird]) = .ok g ∧
        Contains g cat = .ok (true, g') :=
  ⟨by decide, no_false_negatives sampleFilter cat [dog, bird] (by decide) (by decide)
    (by decide)⟩

theorem load_serialize_roundtrip_witness :
    (0 ≤ sampleFilter.M ∧ sampleFilter.M < 2 ^ 31 ∧ sampleFilter.K < 2 ^ 32 ∧
        (sampleFilter.Bitset.length : Int) = sampleFilter.M) ∧
      ∃ g, LoadBloomFilter (serialize sampleFilter) = .ok g ∧ g.M = sampleFilter.M ∧
        g.K = sampleFilter.K ∧ g.Bitset = sampleFilter.Bitset :=
  ⟨by decide, load_serialize_roundtrip sampleFilter (by decide) (by decide) (by decide)
    (by decide)⟩

theorem serialize_layout_witness :
    (sampleFilter.M < 2 ^ 31 ∧ sampleFilter.K < 2 ^ 32 ∧
        (sampleFilter.Bitset.length : Int) = sampleFilter.M) ∧
      serialize sampleFilter = [67, 67, 66, 70, 1, 0, 2, 0, 0, 0, 4, 0, 0, 0, 0, 1, 0, 0] ∧
      ((serialize sampleFilter).length : Int) = 14 + 4 :=
  ⟨by decide,
    (serialize_layout sampleFilter (by decide) (by decide) (by decide)).1.trans (by decide),
    (serialize_layout sampleFilter (by decide) (by decide) (by decide)).2.2.2⟩

theorem load_truncated_rejected_witness :
    (truncatedFile.length < 14 ∨ (truncatedFile.length : Int) < 14 + headerM truncatedFile) ∧
      ∃ e, LoadBloomFilter truncatedFile = .error e ∧ e.isPanic = false :=
  ⟨by decide, load_truncated_rejected truncatedFile (Or.inr (by decide))⟩

theorem Add_idempotent_witness :
    (1 ≤ sampleFilter.M ∧ sampleFilter.M < 2 ^ 31 ∧
        (sampleFilter.Bitset.length : Int) = sampleFilter.M) ∧
      ∃ g1 g2, Add sampleFilter cat = .ok g1 ∧ Add g1 cat = .ok g2 ∧ g2.Bitset = g1.Bitset :=
  ⟨by decide, Add_idempotent sampleFilter cat (by decide) (by decide) (by decide)⟩

theorem bits_never_cleared_witness :
    (1 ≤ sampleFilter.M ∧ sampleFilter.M < 2 ^ 31 ∧
        (sampleFilter.Bitset.length : Int) = sampleFilter.M) ∧
      (∃ g, Add sampleFilter dog = .ok g ∧
        ∀ i : Nat, (i : Int) < sampleFilter.M → sampleFilter.Bitset[i]? = some true →
          g.Bitset[i]? = some true) ∧
      (∃ r g, Contains sampleFilter dog = .ok (r, g) ∧ g.Bitset = sampleFilter.Bitset) :=
  ⟨by decide, bits_never_cleared sampleFilter dog (by decide) (by decide) (by decide)⟩

theorem Add_frame_witness :
    (1 ≤ sampleFilter.M ∧ sampleFilter.M < 2 ^ 31 ∧
        (sampleFilter.Bitset.length : Int) = sampleFilter.M) ∧
      ∃ g, Add sampleFilter bird = .ok g ∧ g.M = sampleFilter.M ∧ g.K = sampleFilter.K ∧
        g.Bitset.length = sampleFilter.Bitset.length ∧
        g.Hashes.length = sampleFilter.Hashes.length :=
  ⟨by decide, Add_frame sampleFilter bird (by decide) (by decide) (by decide)⟩

theorem Contains_iff_all_bits_witness :
    (1 ≤ sampleFilter.M ∧ sampleFilter.M < 2 ^ 31 ∧
        (sampleFilter.Bitset.length : Int) = sampleFilter.M ∧
        sampleFilter.Hashes.map (fun h => h.seed) = List.range sampleFilter.K) ∧
      ∃ r g, Contains sampleFilter cat = .ok (r, g) ∧
        (r = true ↔ ∀ i : Nat, i < sampleFilter.K →
          sampleFilter.Bitset[murmur3.sum32 i cat % sampleFilter.M.toNat]? = some true) :=
  ⟨by decide,
    (Contains_iff_all_bits sampleFilter cat (by decide) (by decide) (by decide)
      (by decide)).imp fun _ h => h.imp fun _ h => ⟨h.1, h.2.1⟩⟩


/-! ## Index safety and commutation of insertions -/

theorem setAll_comm (bits : List Bool) (as bs : List Nat) :
    setAll (setAll bits as) bs = setAll (setAll bits bs) as := by
  apply List.ext_getElem?
  intro j
  simp only [setAll_getElem?]
  cases bits[j]? <;> simp [Bool.or_assoc, Bool.or_comm (decide (j ∈ as))]

theorem idxOf_map_touched (m : Int) (word w : List Byte) (hs : List Hash32) :
    (hs.map (fun h => (h.Reset).Write w)).map (idxOf m word) = hs.map (idxOf m word) := by
  rw [List.map_map]
  apply List.map_congr_left
  intro h _
  exact idxOf_touched m word w h

/-- C18. Index safety: on a filter with `M ≥ 1` (an `int32`) and `len(Bitset) = M`, the divisor
`uint32(M)` is not zero, the index `Sum32() % uint32(M)` computed from any hash object for any
word is below `M` and below `len(Bitset)`, and both `Add(w)` and `Contains(w)` return normally
(no division by zero, no index out of range). -/
theorem index_safety (f : Bloom) (w : List Byte)
    (hM : 1 ≤ f.M) (h32 : f.M < 2 ^ 31) (hlen : (f.Bitset.length : Int) = f.M) :
    uint32 f.M ≠ 0 ∧
      (∀ h : Hash32, (((h.Reset).Write w).Sum32 % uint32 f.M : Nat) < f.Bitset.length ∧
        ((((h.Reset).Write w).Sum32 % uint32 f.M : Nat) : Int) < f.M) ∧
      (∃ g, Add f w = .ok g) ∧ (∃ r g, Contains f w = .ok (r, g)) := by
  obtain ⟨hm, hl⟩ := good_of_valid f hM h32 hlen
  refine ⟨hm, ?_, ⟨_, Add_eq f w hm hl⟩, ?_⟩
  · intro h
    have hlt := idxOf_lt f.M w h hm
    unfold idxOf at hlt
    have h1 : ((h.Reset).Write w).Sum32 % uint32 f.M < f.Bitset.length := by
      rw [hl]; exact hlt
    exact ⟨h1, by omega⟩
  · obtain ⟨r, hs2, hc, _⟩ := Contains.loop_spec f.M w hm f.Bitset hl f.Hashes
    exact ⟨r, { f with Hashes := hs2 }, by simp only [Contains, hc]⟩

/-- C19. Insertion order does not matter: on a filter with `M ≥ 1` (an `int32`) and
`len(Bitset) = M`, the four calls of `Add(a); Add(b)` and of `Add(b); Add(a)` return normally
and the two resulting bit arrays are equal. -/
theorem Add_commutes (f : Bloom) (a b : List Byte)
    (hM : 1 ≤ f.M) (h32 : f.M < 2 ^ 31) (hlen : (f.Bitset.length : Int) = f.M) :
    ∃ g1 g2 k1 k2, Add f a = .ok g1 ∧ Add g1 b = .ok g2 ∧ Add f b = .ok k1 ∧
      Add k1 a = .ok k2 ∧ g2.Bitset = k2.Bitset := by
  obtain ⟨hm, hl⟩ := good_of_valid f hM h32 hlen
  refine ⟨_, _, _, _, Add_eq f a hm hl, Add_eq _ b hm (by simpa [setAll_length] using hl),
    Add_eq f b hm hl, Add_eq _ a hm (by simpa [setAll_length] using hl), ?_⟩
  simp only [idxOf_map_touched]
  exact setAll_comm _ _ _

/-! ## What `LoadBloomFilter` accepts and what it returns -/

theorem LoadBloomFilter_accepts (file : List Byte) (h14 : 14 ≤ file.length)
    (h0 : 0 ≤ headerM file) (hlen : 14 + headerM file ≤ (file.length : Int)) :
    LoadBloomFilter file =
      .ok { M := headerM file, K := headerK file,
            Bitset := ((file.drop 14).take (headerM file).toNat).map
              (fun b => decide (b.val = 1)),
            Hashes := (List.range (headerK file)).map New32WithSeed } := by
  have hloop := LoadBloomFilter.loop_ok (headerM file).toNat 0 (file.drop 14)
    (List.replicate (headerM file).toNat false) (by simp) (by simp; omega)
  simp only [List.take_zero, List.nil_append] at hloop
  rw [LoadBloomFilter_of_header file h14, if_neg (by omega), hloop]

theorem LoadBloomFilter_ok_inv (file : List Byte) (g : Bloom)
    (h : LoadBloomFilter file = .ok g) :
    14 ≤ file.length ∧ 0 ≤ headerM file ∧ 14 + headerM file ≤ (file.length : Int) := by
  by_cases h14 : file.length < 14
  · rcases LoadBloomFilter_short file h14 with e | e <;> rw [e] at h <;> cases h
  · have h14' : 14 ≤ file.length := by omega
    rw [LoadBloomFilter_of_header file h14'] at h
    by_cases hneg : headerM file < 0
    · rw [if_pos hneg] at h; cases h
    · rw [if_neg hneg] at h
      by_cases hshort : (file.length : Int) < 14 + headerM file
      · have hloop := LoadBloomFilter.loop_short (headerM file).toNat 0 (file.drop 14)
          (List.replicate (headerM file).toNat false) (by simp) (by simp; omega)
        rw [hloop] at h
        cases h
      · exact ⟨h14', by omega, by omega⟩

theorem leUint_lt (bs : List Byte) : leUint bs < 256 ^ bs.length := by
  induction bs with
  | nil => simp [leUint]
  | cons b bs ih =>
    have hb := b.isLt
    simp only [leUint, List.length_cons, pow_succ]
    omega

theorem headerK_lt (file : List Byte) : headerK file < 2 ^ 32 := by
  unfold headerK
  have h := leUint_lt ((file.drop 6).take 4)
  have hl : ((file.drop 6).take 4).length ≤ 4 := by simp
  calc leUint ((file.drop 6).take 4) < 256 ^ ((file.drop 6).take 4).length := h
    _ ≤ 256 ^ 4 := Nat.pow_le_pow_right (by norm_num) hl
    _ = 2 ^ 32 := by norm_num

theorem seeds_New32WithSeed (k : Nat) (hk : k ≤ 2 ^ 32) :
    ((List.range k).map New32WithSeed).map (fun h => h.seed) = List.range k := by
  rw [List.map_map]
  conv_rhs => rw [← List.map_id (List.range k)]
  apply List.map_congr_left
  intro i hi
  have : i < k := List.mem_range.1 hi
  simp only [Function.comp_apply, New32WithSeed, id]
  exact Nat.mod_eq_of_lt (by omega)

/-- C20. Acceptance and shape of the result: on a file of at least 14 bytes whose `bit_count`
field `M` (the `int32` at offsets 10 to 13) is not negative and which has at least `14 + M`
bytes, `LoadBloomFilter` returns a filter whose `M` and `K` are the values of the header, whose
bit array has exactly `M` entries and whose list of hash functions has exactly `K`; and it
returns that same filter on every file that has the same first `14 + M` bytes. -/
theorem load_accepts_shape (file : List Byte) (h14 : 14 ≤ file.length)
    (h0 : 0 ≤ headerM file) (hlen : 14 + headerM file ≤ (file.length : Int)) :
    ∃ g, LoadBloomFilter file = .ok g ∧ g.M = headerM file ∧ g.K = headerK file ∧
      (g.Bitset.length : Int) = g.M ∧ g.Hashes.length = g.K ∧
      ∀ other : List Byte,
        other.take (14 + (headerM file).toNat) = file.take (14 + (headerM file).toNat) →
        LoadBloomFilter other = .ok g := by
  refine ⟨_, LoadBloomFilter_accepts file h14 h0 hlen, rfl, rfl, ?_, by simp, ?_⟩
  · simp only [List.length_map, List.length_take, List.length_drop]
    omega
  · intro other ho
    have hol : 14 + (headerM file).toNat ≤ other.length := by
      have h1 : (other.take (14 + (headerM file).toNat)).length =
          (file.take (14 + (headerM file).toNat)).length := by rw [ho]
      simp only [List.length_take] at h1
      omega
    have hK : headerK other = headerK file := by
      have h1 : (other.take (14 + (headerM file).toNat)).drop 6 =
          (file.take (14 + (headerM file).toNat)).drop 6 := by rw [ho]
      have h2 := congrArg (List.take 4) h1
      simp only [List.drop_take, List.take_take] at h2
      unfold headerK
      rw [show min 4 (14 + (headerM file).toNat - 6) = 4 by omega] at h2
      exact congrArg leUint h2
    have hMe : headerM other = headerM file := by
      have h1 : (other.take (14 + (headerM file).toNat)).drop 10 =
          (file.take (14 + (headerM file).toNat)).drop 10 := by rw [ho]
      have h2 := congrArg (List.take 4) h1
      simp only [List.drop_take, List.take_take] at h2
      unfold headerM
      rw [show min 4 (14 + (headerM file).toNat - 10) = 4 by omega] at h2
      exact congrArg (fun l => int32 (leUint l)) h2
    have hB : (other.drop 14).take (headerM file).toNat =
        (file.drop 14).take (headerM file).toNat := by
      have h1 : (other.take (14 + (headerM file).toNat)).drop 14 =
          (file.take (14 + (headerM file).toNat)).drop 14 := by rw [ho]
      simp only [List.drop_take] at h1
      rw [show 14 + (headerM file).toNat - 14 = (headerM file).toNat by omega] at h1
      exact h1
    rw [LoadBloomFilter_accepts other (by omega) (by rw [hMe]; exact h0) (by rw [hMe]; omega),
      hK, hMe, hB]

theorem header_of_take14 (f1 f2 : List Byte) (h : f1.take 14 = f2.take 14) :
    headerM f1 = headerM f2 ∧ headerK f1 = headerK f2 := by
  have hm : (f1.drop 10).take 4 = (f2.drop 10).take 4 := by
    have := congrArg (List.drop 10) h
    simpa [List.drop_take] using this
  have hk : (f1.drop 6).take 4 = (f2.drop 6).take 4 := by
    have := congrArg (fun l => (List.drop 6 l).take 4) h
    simpa [List.drop_take, List.take_take] using this
  simp only [headerM, headerK, hm, hk, and_self]

theorem take_set_of_le (l : List Byte) (m n : Nat) (v : Byte) (h : m ≤ n) :
    (l.set n v).take m = l.take m := by
  induction l generalizing m n with
  | nil => simp
  | cons a l ih =>
    cases m with
    | zero => simp
    | succ m =>
      cases n with
      | zero => omega
      | succ n => simp [ih m n (by omega)]

theorem loaded_bit (file : List Byte) (i : Nat) (hi : i < (headerM file).toNat) :
    (((file.drop 14).take (headerM file).toNat).map (fun b => decide (b.val = 1)))[i]? =
      (file[14 + i]?).map (fun b => decide (b.val = 1)) := by
  rw [List.getElem?_map, List.getElem?_take_of_lt hi, List.getElem?_drop]

/-- C14. Lenient decoding of the bits: when `LoadBloomFilter` accepts a file, then for every
position `i < M` the loaded `Bitset[i]` is true exactly when the byte at offset `14 + i` is 1;
and the same file with any other value than 1 in that byte is accepted as well, with the same
`M` and `K`, and `Bitset[i]` false. -/
theorem load_bits_lenient (file : List Byte) (g : Bloom) (h : LoadBloomFilter file = .ok g)
    (i : Nat) (hi : (i : Int) < g.M) :
    (∃ b : Byte, file[14 + i]? = some b ∧ g.Bitset[i]? = some (decide (b.val = 1))) ∧
      ∀ v : Byte, v.val ≠ 1 →
        ∃ g', LoadBloomFilter (file.set (14 + i) v) = .ok g' ∧ g'.M = g.M ∧ g'.K = g.K ∧
          g'.Bitset[i]? = some false := by
  obtain ⟨h14, h0, hlen⟩ := LoadBloomFilter_ok_inv file g h
  have e := LoadBloomFilter_accepts file h14 h0 hlen
  rw [h] at e
  injection e with e
  subst e
  simp only at hi
  have hit : i < (headerM file).toNat := by omega
  have hlt : 14 + i < file.length := by omega
  constructor
  · refine ⟨file[14 + i], List.getElem?_eq_getElem hlt, ?_⟩
    simp only
    rw [loaded_bit file i hit, List.getElem?_eq_getElem hlt]
    rfl
  · intro v hv
    have ht : (file.set (14 + i) v).take 14 = file.take 14 :=
      take_set_of_le file 14 (14 + i) v (by omega)
    obtain ⟨hMe, hKe⟩ := header_of_take14 _ _ ht
    have e2 := LoadBloomFilter_accepts (file.set (14 + i) v) (by simpa using h14)
      (by rw [hMe]; exact h0) (by rw [hMe, List.length_set]; exact hlen)
    refine ⟨_, e2, hMe, hKe, ?_⟩
    simp only
    rw [loaded_bit _ i (by rw [hMe]; exact hit), List.getElem?_set_eq_of_lt v hlt]
    simp [hv]

/-- C15. Neither the identifier nor the version is checked: on two files of the same length
that agree from offset 6 on, `LoadBloomFilter` has the same outcome, the same error or the same
filter. -/
theorem load_ignores_magic_version (f1 f2 : List Byte) (hlen : f1.length = f2.length)
    (hrest : f1.drop 6 = f2.drop 6) : LoadBloomFilter f1 = LoadBloomFilter f2 := by
  have h4 : (f1.drop 4).length = (f2.drop 4).length := by simp [hlen]
  have h6 : List.drop 2 (List.drop 4 f1) = List.drop 2 (List.drop 4 f2) := by
    simpa [List.drop_drop] using hrest
  by_cases hz : f2.length = 0
  · have e2 : f2 = [] := List.length_eq_zero.1 hz
    have e1 : f1 = [] := List.length_eq_zero.1 (hlen.trans hz)
    rw [e1, e2]
  · have hz1 : ¬ (f1.length = 0 ∧ 0 < 4) := by omega
    have hz2 : ¬ (f2.length = 0 ∧ 0 < 4) := by omega
    unfold LoadBloomFilter
    simp only [fileRead, hz1, hz2, if_false]
    by_cases h2 : 2 ≤ (List.drop 4 f2).length
    · rw [binaryRead_ok 2 (List.drop 4 f1) (by rw [h4]; exact h2), binaryRead_ok 2 _ h2]
      simp only [h6]
    · have e1 : binaryRead 2 (List.drop 4 f1) = binaryRead 2 (List.drop 4 f2) := by
        unfold binaryRead
        rw [if_neg (by rw [h4]; exact h2), if_neg h2, h4]
      rw [e1]

/-! ## Construction: boundary, absent validation, fresh filter -/

theorem New_eq (b0 : Bloom) (n : Int) (p : ℝ) (h : 0 ≤ M n p) :
    New b0 n p =
      .ok { M := M n p, K := K (M n p) n, Bitset := List.replicate (M n p).toNat false,
            Hashes := (List.range (K (M n p) n)).map New32WithSeed } := by
  simp only [New]
  rw [if_neg (by omega)]

theorem New_panics (b0 : Bloom) (n : Int) (p : ℝ) (h : M n p < 0) :
    New b0 n p = .error .makesliceLenOutOfRange := by
  simp only [New]
  rw [if_pos h]

theorem M_one_of_close (p : ℝ) (hp0 : 0 < p) (hp1 : p < 1)
    (hlog : -(Real.log 2 ^ (2 : ℝ)) ≤ Real.log p) : M 1 p = 1 := by
  have hx : -1 * ((1 : Int) : ℝ) * Real.log p / Real.log 2 ^ (2 : ℝ) ≤ 1 := by
    rw [div_le_one log_two_sq_pos]
    push_cast
    linarith
  obtain ⟨e, h1, _⟩ := M_of_fits 1 p (by norm_num) hp0 hp1 (by linarith)
  have h2 : ⌈-1 * ((1 : Int) : ℝ) * Real.log p / Real.log 2 ^ (2 : ℝ)⌉ ≤ 1 := by
    apply Int.ceil_le.2
    exact_mod_cast hx
  omega

theorem K_1_1 : K 1 1 = 1 := by
  obtain ⟨e, h1⟩ := K_of_pos 1 1 (by norm_num) (by norm_num) (by norm_num)
  have h2 : ⌈((1 : Int) : ℝ) * Real.log 2 / ((1 : Int) : ℝ)⌉ ≤ 1 := by
    apply Int.ceil_le.2
    have := log_two_lt_one
    push_cast
    linarith
  omega

theorem log_p09 : -(Real.log 2 ^ (2 : ℝ)) ≤ Real.log 0.9 := by
  have h1 : Real.log 0.9 = -Real.log (10 / 9) := by
    rw [← Real.log_inv]; norm_num
  have h2 : Real.log (10 / 9) ≤ 10 / 9 - 1 := Real.log_le_sub_one_of_pos (by norm_num)
  have h3 := Real.log_two_gt_d9
  rw [h1, Real.rpow_two]
  nlinarith

/-- C11. Boundary case: for `n = 1` and `0 < p < 1` with `ln p ≥ -(ln 2)^2`, `New(1, p)`
returns a filter with `M = 1` and `K = 1`; and on every filter with `M = 1`, `K = 1`, one bit
and `K` hash functions, `Contains(w)` returns the value of `Bitset[0]`, whatever the word. -/
theorem boundary_one_bit (b0 : Bloom) (p : ℝ) (hp0 : 0 < p) (hp1 : p < 1)
    (hlog : -(Real.log 2 ^ (2 : ℝ)) ≤ Real.log p)
    (f : Bloom) (w : List Byte) (hM : f.M = 1) (hK : f.K = 1) (hlen : f.Bitset.length = 1)
    (hH : f.Hashes.length = f.K) :
    (∃ b, New b0 1 p = .ok b ∧ b.M = 1 ∧ b.K = 1) ∧
      ∃ bit g, f.Bitset[0]? = some bit ∧ Contains f w = .ok (bit, g) := by
  constructor
  · have hM1 := M_one_of_close p hp0 hp1 hlog
    refine ⟨_, New_eq b0 1 p (by omega), hM1, ?_⟩
    simp only [hM1, K_1_1]
  · rw [hK] at hH
    obtain ⟨bit, hb⟩ := List.length_eq_one.1 hlen
    obtain ⟨h, hh⟩ := List.length_eq_one.1 hH
    have hu : uint32 1 = 1 := by decide
    cases bit with
    | false =>
      exact ⟨false, { f with Hashes := [(h.Reset).Write w] }, by simp [hb],
        by simp [Contains, Contains.loop, hM, hb, hh, hu, Nat.mod_one]⟩
    | true =>
      exact ⟨true, { f with Hashes := [(h.Reset).Write w] }, by simp [hb],
        by simp [Contains, Contains.loop, hM, hb, hh, hu, Nat.mod_one]⟩

theorem M_n_one (n : Int) : M n 1 = 0 := by
  simp [M, Real.log_one, Ceil, int32OfFloat, trunc]

theorem K_zero (n : Int) : K 0 n = 0 := by
  simp [K, Ceil, uint32OfFloat, trunc]

theorem M_neg1_half : M (-1) (1 / 2) = -1 := by
  have hl := Real.log_two_gt_d9
  have hu := Real.log_two_lt_d9
  have hsq : (0 : ℝ) < Real.log 2 ^ 2 := by positivity
  have h1 : Real.log (1 / 2) = -Real.log 2 := by
    rw [one_div, Real.log_inv]
  have hc : ⌈-1 * ((-1 : Int) : ℝ) * Real.log (1 / 2) / Real.log 2 ^ (2 : ℝ)⌉ = -1 := by
    rw [Int.ceil_eq_iff, Real.rpow_two, h1]
    push_cast
    constructor
    · rw [lt_div_iff₀ hsq]
      nlinarith
    · rw [div_le_iff₀ hsq]
      nlinarith
  unfold M
  rw [int32OfFloat_Ceil _ (by rw [hc]; norm_num) (by rw [hc]; norm_num), hc]

theorem M_nonpos_of_bad (n : Int) (p : ℝ) (hp : 0 < p)
    (hbad : (0 < n ∧ 1 ≤ p) ∨ (n < 0 ∧ p < 1)) : M n p ≤ 0 := by
  have hx : -1 * (n : ℝ) * Real.log p / Real.log 2 ^ (2 : ℝ) ≤ 0 := by
    apply div_nonpos_of_nonpos_of_nonneg _ log_two_sq_pos.le
    rcases hbad with ⟨hn, hp1⟩ | ⟨hn, hp1⟩
    · have hn' : (0 : ℝ) < n := by exact_mod_cast hn
      have hlog : 0 ≤ Real.log p := Real.log_nonneg hp1
      nlinarith
    · have hn' : (n : ℝ) < 0 := by exact_mod_cast hn
      have hlog : Real.log p < 0 := Real.log_neg hp hp1
      nlinarith
  have hc : ⌈-1 * (n : ℝ) * Real.log p / Real.log 2 ^ (2 : ℝ)⌉ ≤ 0 := by
    apply Int.ceil_le.2
    exact_mod_cast hx
  simp only [M, int32OfFloat, Ceil, trunc_intCast]
  split
  · exact hc
  · norm_num

/-- C12, the claim as stated fails: `p = 1` is not strictly between 0 and 1, and `New(1, 1)`
returns a filter, the empty one, instead of an error; `n = -1` is not positive, and
`New(-1, 1/2)` stops with a run-time panic in `make`, not with an error value. -/
theorem New_accepts_p_one :
    ¬ ((0 : ℝ) < 1 ∧ (1 : ℝ) < 1) ∧
      New Bloom.zero 1 1 = .ok { M := 0, K := 0, Bitset := [], Hashes := [] } ∧
      (-1 : Int) ≤ 0 ∧ New Bloom.zero (-1) (1 / 2) = .error .makesliceLenOutOfRange ∧
      Fault.isPanic .makesliceLenOutOfRange = true := by
  refine ⟨by norm_num, ?_, by norm_num, ?_, rfl⟩
  · rw [New_eq Bloom.zero 1 1 (by rw [M_n_one]), M_n_one, K_zero]
    rfl
  · exact New_panics Bloom.zero (-1) (1 / 2) (by rw [M_neg1_half]; norm_num)

/-- C12, amended. `New` checks nothing and returns no error. For `n > 0` with `p ≥ 1`, and for
`n < 0` with `0 < p < 1`, the computed `M(n, p)` is zero or negative: when it is zero `New`
returns the empty filter (`M = 0`, `K = 0`, no bit, no hash function), and when it is negative
`New` stops with a run-time panic in `make`. -/
theorem New_validates_nothing (b0 : Bloom) (n : Int) (p : ℝ) (hp : 0 < p)
    (hbad : (0 < n ∧ 1 ≤ p) ∨ (n < 0 ∧ p < 1)) :
    (M n p = 0 ∧ New b0 n p = .ok { M := 0, K := 0, Bitset := [], Hashes := [] }) ∨
      (M n p < 0 ∧ New b0 n p = .error .makesliceLenOutOfRange ∧
        Fault.isPanic .makesliceLenOutOfRange = true) := by
  have hle := M_nonpos_of_bad n p hp hbad
  by_cases h0 : M n p = 0
  · left
    refine ⟨h0, ?_⟩
    rw [New_eq b0 n p (by omega), h0, K_zero]
    rfl
  · right
    exact ⟨by omega, New_panics b0 n p (by omega), rfl⟩

theorem replicate_false_getElem? (k i : Nat) (h : i < k) :
    (List.replicate k false)[i]? = some false := by
  rw [List.getElem?_eq_getElem (by simpa using h)]
  simp


/-! ## Loading what was built -/

theorem int32OfFloat_range (x : ℝ) : -2 ^ 31 ≤ int32OfFloat x ∧ int32OfFloat x < 2 ^ 31 := by
  simp only [int32OfFloat]
  split
  · assumption
  · norm_num

theorem uint32OfFloat_lt (x : ℝ) : uint32OfFloat x < 2 ^ 32 := by
  simp only [uint32OfFloat]
  split
  · omega
  · split
    · omega
    · norm_num

theorem New_ok_inv (b0 : Bloom) (n : Int) (p : ℝ) (f0 : Bloom) (h : New b0 n p = .ok f0) :
    0 ≤ f0.M ∧ f0.M < 2 ^ 31 ∧ f0.K < 2 ^ 32 ∧ (f0.Bitset.length : Int) = f0.M ∧
      f0.Hashes = (List.range f0.K).map New32WithSeed := by
  by_cases hneg : M n p < 0
  · rw [New_panics b0 n p hneg] at h; cases h
  · rw [New_eq b0 n p (by omega)] at h
    injection h with h
    subst h
    refine ⟨by simpa using hneg, (int32OfFloat_range _).2, uint32OfFloat_lt _, ?_, rfl⟩
    simp only [List.length_replicate]
    omega

theorem Add.loop_inv (m : Int) (word : List Byte) (hs : List Hash32) (bits : List Bool)
    (bits2 : List Bool) (hs2 : List Hash32) (h : Add.loop m word hs bits = .ok (bits2, hs2)) :
    bits2.length = bits.length ∧ hs2.map (fun h => h.seed) = hs.map (fun h => h.seed) := by
  induction hs generalizing bits bits2 hs2 with
  | nil =>
    simp only [Add.loop] at h
    injection h with h
    injection h with h1 h2
    subst h1 h2
    exact ⟨rfl, rfl⟩
  | cons a rest ih =>
    simp only [Add.loop] at h
    split at h
    · cases h
    · split at h
      · split at h
        · rename_i bits3 rest3 heq
          obtain ⟨hl, hsd⟩ := ih _ _ _ heq
          injection h with h
          injection h with h1 h2
          subst h1 h2
          refine ⟨by simpa using hl, ?_⟩
          simp [hsd, Hash32.Reset, Hash32.Write]
        · cases h
      · cases h

theorem Add_inv (f g : Bloom) (word : List Byte) (h : Add f word = .ok g) :
    g.M = f.M ∧ g.K = f.K ∧ g.Bitset.length = f.Bitset.length ∧
      g.Hashes.map (fun h => h.seed) = f.Hashes.map (fun h => h.seed) := by
  unfold Add at h
  split at h
  · rename_i bits hashes heq
    obtain ⟨hl, hsd⟩ := Add.loop_inv _ _ _ _ _ _ heq
    injection h with h
    subst h
    exact ⟨rfl, rfl, hl, hsd⟩
  · cases h

theorem AddAll_inv (ws : List (List Byte)) (f g : Bloom) (h : AddAll f ws = .ok g) :
    g.M = f.M ∧ g.K = f.K ∧ g.Bitset.length = f.Bitset.length ∧
      g.Hashes.map (fun h => h.seed) = f.Hashes.map (fun h => h.seed) := by
  induction ws generalizing f with
  | nil =>
    simp only [AddAll] at h
    injection h with h
    subst h
    exact ⟨rfl, rfl, rfl, rfl⟩
  | cons w ws ih =>
    simp only [AddAll] at h
    split at h
    · rename_i b heq
      obtain ⟨h1, h2, h3, h4⟩ := Add_inv f b w heq
      obtain ⟨k1, k2, k3, k4⟩ := ih b h
      exact ⟨k1.trans h1, k2.trans h2, k3.trans h3, k4.trans h4⟩
    · cases h

theorem LoadBloomFilter_serialize (f : Bloom) (hM : 0 ≤ f.M) (h32 : f.M < 2 ^ 31)
    (hK : f.K < 2 ^ 32) (hlen : (f.Bitset.length : Int) = f.M) :
    LoadBloomFilter (serialize f) =
      .ok { M := f.M, K := f.K, Bitset := f.Bitset,
            Hashes := (List.range f.K).map New32WithSeed } := by
  obtain ⟨h14, hk, hm, hd⟩ := serialize_split f
  rw [int32_uint32 f.M (by omega) h32] at hm
  rw [Nat.mod_eq_of_lt hK] at hk
  have hn : f.M.toNat = f.Bitset.length := by omega
  have hl : 14 + headerM (serialize f) ≤ ((serialize f).length : Int) := by
    have : ((serialize f).drop 14).length = f.Bitset.length := by rw [hd]; simp
    simp only [List.length_drop] at this
    omega
  rw [LoadBloomFilter_accepts _ h14 (by omega) hl, hm, hk, hd, hn,
    List.take_of_length_le (by simp), map_bit_byte]

theorem Contains.loop_seeds (m : Int) (bits : List Bool) (word : List Byte)
    (hs1 hs2 : List Hash32) (h : hs1.map (fun h => h.seed) = hs2.map (fun h => h.seed)) :
    (Contains.loop m bits word hs1).map Prod.fst = (Contains.loop m bits word hs2).map Prod.fst := by
  induction hs1 generalizing hs2 with
  | nil =>
    cases hs2 with
    | nil => rfl
    | cons b r => simp at h
  | cons a rest ih =>
    cases hs2 with
    | nil => simp at h
    | cons b r =>
      simp only [List.map_cons, List.cons.injEq] at h
      obtain ⟨hab, hr⟩ := h
      have ih' := ih r hr
      have hsum : ((a.Reset).Write word).Sum32 = ((b.Reset).Write word).Sum32 := by
        simp [Hash32.Reset, Hash32.Write, Hash32.Sum32, hab]
      simp only [Contains.loop, hsum]
      split
      · rfl
      · split
        · rfl
        · split
          · rfl
          · revert ih'
            cases Contains.loop m bits word rest <;> cases Contains.loop m bits word r <;>
              simp [Except.map]

theorem Contains_fst (f : Bloom) (word : List Byte) :
    (Contains f word).map Prod.fst =
      (Contains.loop f.M f.Bitset word f.Hashes).map Prod.fst := by
  unfold Contains
  cases Contains.loop f.M f.Bitset word f.Hashes <;> rfl

/-- C16. Seeds are derived again on loading: `New` and `LoadBloomFilter` both build the hash
functions as `New32WithSeed(i)` for `i = 0 .. K-1`; and for a filter `f` obtained from `New` by
a run of `Add` calls, `LoadBloomFilter` accepts the bytes written for `f`, returns a filter with
`K` hash functions seeded `0 .. K-1`, and `Contains(w)` has the same outcome on the loaded
filter as on `f`, for every word. -/
theorem load_rederives_seeds (b0 : Bloom) (n : Int) (p : ℝ) (ws : List (List Byte))
    (f0 f : Bloom) (hNew : New b0 n p = .ok f0) (hAdd : AddAll f0 ws = .ok f) :
    f0.Hashes = (List.range f0.K).map New32WithSeed ∧
      ∃ g, LoadBloomFilter (serialize f) = .ok g ∧ g.K = f.K ∧
        g.Hashes = (List.range g.K).map New32WithSeed ∧
        g.Hashes.map (fun h => h.seed) = List.range g.K ∧
        ∀ w : List Byte, (Contains g w).map Prod.fst = (Contains f w).map Prod.fst := by
  obtain ⟨h0, h32, hK, hl, hH⟩ := New_ok_inv b0 n p f0 hNew
  obtain ⟨eM, eK, eL, eS⟩ := AddAll_inv ws f0 f hAdd
  have hload := LoadBloomFilter_serialize f (by omega) (by omega) (by omega) (by omega)
  refine ⟨hH, _, hload, rfl, rfl, seeds_New32WithSeed f.K (by omega), ?_⟩
  intro w
  rw [Contains_fst, Contains_fst]
  apply Contains.loop_seeds
  rw [eS, hH, eK]

theorem New_3_p015 :
    New Bloom.zero 3 0.15 =
      .ok { M := 12, K := 3, Bitset := List.replicate 12 false,
            Hashes := (List.range 3).map New32WithSeed } := by
  rw [New_eq Bloom.zero 3 0.15 (by rw [M_3_p015]; norm_num), M_3_p015, K_12_3]
  rfl

theorem BuildBloomFilter_cat_dog_bird :
    BuildBloomFilter [cat, dog, bird] 0.15 =
      .ok [67, 67, 66, 70, 1, 0, 3, 0, 0, 0, 12, 0, 0, 0,
           0, 0, 1, 1, 0, 1, 1, 1, 1, 0, 0, 1] := by
  have h3 : (([cat, dog, bird].length : Nat) : Int) = 3 := rfl
  unfold BuildBloomFilter
  rw [h3, New_3_p015]
  rfl

/-- C17. The header as the code writes it, on the words `cat`, `dog`, `bird` with `p = 0.15`
(`K = 3`, `M = 12`): `K` occupies the four bytes at offsets 6 to 9 and `M` the four bytes at
offsets 10 to 13; the four bytes at offsets 8 to 11 are `0, 0, 12, 0`, whose value is 786432
and not `M`. -/
theorem header_K_on_four_bytes :
    ∃ out, BuildBloomFilter [cat, dog, bird] 0.15 = .ok out ∧
      headerK out = 3 ∧ headerM out = 12 ∧
      (out.drop 6).take 4 = [3, 0, 0, 0] ∧ (out.drop 10).take 4 = [12, 0, 0, 0] ∧
      (out.drop 8).take 4 = [0, 0, 12, 0] ∧ leUint ((out.drop 8).take 4) = 786432 :=
  ⟨_, BuildBloomFilter_cat_dog_bird, by decide, by decide, by decide, by decide, by decide,
    by decide⟩

/-! ## Further instances on sample data -/

theorem index_safety_witness :
    (1 ≤ sampleFilter.M ∧ sampleFilter.M < 2 ^ 31 ∧
        (sampleFilter.Bitset.length : Int) = sampleFilter.M) ∧
      (∃ g, Add sampleFilter cat = .ok g) ∧ (∃ r g, Contains sampleFilter cat = .ok (r, g)) :=
  ⟨by decide, (index_safety sampleFilter cat (by decide) (by decide) (by decide)).2.2⟩

theorem Add_commutes_witness :
    (1 ≤ sampleFilter.M ∧ sampleFilter.M < 2 ^ 31 ∧
        (sampleFilter.Bitset.length : Int) = sampleFilter.M) ∧
      ∃ g1 g2 k1 k2, Add sampleFilter cat = .ok g1 ∧ Add g1 dog = .ok g2 ∧
        Add sampleFilter dog = .ok k1 ∧ Add k1 cat = .ok k2 ∧ g2.Bitset = k2.Bitset :=
  ⟨by decide, Add_commutes sampleFilter cat dog (by decide) (by decide) (by decide)⟩

theorem load_accepts_shape_witness :
    (14 ≤ lenientFile.length ∧ 0 ≤ headerM lenientFile ∧
        14 + headerM lenientFile ≤ (lenientFile.length : Int)) ∧
      ∃ g, LoadBloomFilter lenientFile = .ok g ∧ g.M = 4 ∧ g.K = 2 ∧
        (g.Bitset.length : Int) = g.M ∧ g.Hashes.length = g.K :=
  ⟨by decide,
    (load_accepts_shape lenientFile (by decide) (by decide) (by decide)).imp
      fun _ h => ⟨h.1, h.2.1, h.2.2.1, h.2.2.2.1, h.2.2.2.2.1⟩⟩

theorem load_bits_lenient_witness :
    LoadBloomFilter lenientFile =
        .ok { M := 4, K := 2, Bitset := [false, true, false, false],
              Hashes := [New32WithSeed 0, New32WithSeed 1] } ∧
      ∃ b : Byte, lenientFile[14 + 2]? = some b ∧
        [false, true, false, false][2]? = some (decide (b.val = 1)) :=
  ⟨by rfl, (load_bits_lenient lenientFile
    { M := 4, K := 2, Bitset := [false, true, false, false],
      Hashes := [New32WithSeed 0, New32WithSeed 1] } (by rfl) 2 (by decide)).1⟩

theorem load_ignores_magic_version_witness :
    (lenientFile.length = foreignFile.length ∧ lenientFile.drop 6 = foreignFile.drop 6) ∧
      LoadBloomFilter lenientFile = LoadBloomFilter foreignFile :=
  ⟨by decide, load_ignores_magic_version lenientFile foreignFile (by decide) (by decide)⟩

theorem boundary_one_bit_witness :
    ((0 : ℝ) < 0.9 ∧ (0.9 : ℝ) < 1 ∧ -(Real.log 2 ^ (2 : ℝ)) ≤ Real.log 0.9 ∧
        oneBitFilter.M = 1 ∧ oneBitFilter.K = 1 ∧ oneBitFilter.Bitset.length = 1 ∧
        oneBitFilter.Hashes.length = oneBitFilter.K) ∧
      (∃ b, New Bloom.zero 1 0.9 = .ok b ∧ b.M = 1 ∧ b.K = 1) ∧
      ∃ bit g, oneBitFilter.Bitset[0]? = some bit ∧ Contains oneBitFilter cat = .ok (bit, g) :=
  ⟨⟨by norm_num, by norm_num, log_p09, rfl, rfl, rfl, rfl⟩,
    boundary_one_bit Bloom.zero 0.9 (by norm_num) (by norm_num) log_p09 oneBitFilter cat
      rfl rfl rfl rfl⟩

theorem New_validates_nothing_witness :
    ((0 : ℝ) < 1 ∧ (((0 : Int) < 1 ∧ (1 : ℝ) ≤ 1) ∨ ((1 : Int) < 0 ∧ (1 : ℝ) < 1))) ∧
      ((M 1 1 = 0 ∧ New Bloom.zero 1 1 = .ok { M := 0, K := 0, Bitset := [], Hashes := [] }) ∨
        (M 1 1 < 0 ∧ New Bloom.zero 1 1 = .error .makesliceLenOutOfRange ∧
          Fault.isPanic .makesliceLenOutOfRange = true)) :=
  ⟨⟨by norm_num, Or.inl ⟨by norm_num, le_refl _⟩⟩,
    New_validates_nothing Bloom.zero 1 1 (by norm_num) (Or.inl ⟨by norm_num, le_refl _⟩)⟩

theorem load_rederives_seeds_witness :
    (New Bloom.zero 3 0.15 =
        .ok { M := 12, K := 3, Bitset := List.replicate 12 false,
              Hashes := (List.range 3).map New32WithSeed } ∧
      AddAll { M := 12, K := 3, Bitset := List.replicate 12 false,
               Hashes := (List.range 3).map New32WithSeed } [cat, dog, bird] =
        .ok { M := 12, K := 3,
              Bitset := [false, false, true, true, false, true, true, true, true, false,
                false, true],
              Hashes := (List.range 3).map (fun i => ((New32WithSeed i).Reset).Write bird) }) ∧
      ∃ g, LoadBloomFilter (serialize
          { M := 12, K := 3,
            Bitset := [false, false, true, true, false, true, true, true, true, false,
              false, true],
            Hashes := (List.range 3).map (fun i => ((New32WithSeed i).Reset).Write bird) }) =
          .ok g ∧ g.K = 3 ∧ g.Hashes = (List.range g.K).map New32WithSeed :=
  ⟨⟨New_3_p015, by rfl⟩,
    (load_rederives_seeds Bloom.zero 3 0.15 [cat, dog, bird] _ _ New_3_p015 (by rfl)).2.imp
      fun _ h => ⟨h.1, h.2.1, h.2.2.1⟩⟩

/-! ## Sizing with the rounding of float64 -/

theorem rounded.eps_pos : 0 < rounded.eps := by norm_num [rounded.eps]

theorem rounded.eps_lt_one : rounded.eps < 1 := by norm_num [rounded.eps]

theorem rounded.near_within (x y : ℝ) (hx : 0 < x) (h : rounded.Near x y) :
    rounded.Within (1 - rounded.eps) (1 + rounded.eps) x y := by
  unfold rounded.Near at h
  rw [abs_of_pos hx, abs_le] at h
  constructor <;> linarith [h.1, h.2]

theorem rounded.near_within_neg (x y : ℝ) (hx : x < 0) (h : rounded.Near x y) :
    rounded.Within (1 - rounded.eps) (1 + rounded.eps) (-x) (-y) := by
  unfold rounded.Near at h
  rw [abs_of_neg hx, abs_le] at h
  constructor <;> linarith [h.1, h.2]

theorem rounded.Within.pos (lo hi x y : ℝ) (hlo : 0 < lo) (hx : 0 < x)
    (h : rounded.Within lo hi x y) : 0 < y :=
  lt_of_lt_of_le (mul_pos hlo hx) h.1

theorem rounded.Within.mul (l1 h1 x1 y1 l2 h2 x2 y2 : ℝ) (hl1 : 0 < l1) (hl2 : 0 < l2)
    (hx1 : 0 < x1) (hx2 : 0 < x2) (w1 : rounded.Within l1 h1 x1 y1)
    (w2 : rounded.Within l2 h2 x2 y2) :
    rounded.Within (l1 * l2) (h1 * h2) (x1 * x2) (y1 * y2) := by
  have hy1 := rounded.Within.pos l1 h1 x1 y1 hl1 hx1 w1
  have hy2 := rounded.Within.pos l2 h2 x2 y2 hl2 hx2 w2
  constructor
  · have := mul_le_mul w1.1 w2.1 (mul_pos hl2 hx2).le hy1.le
    calc l1 * l2 * (x1 * x2) = l1 * x1 * (l2 * x2) := by ring
      _ ≤ y1 * y2 := this
  · have := mul_le_mul w1.2 w2.2 hy2.le (le_trans hy1.le w1.2)
    calc y1 * y2 ≤ h1 * x1 * (h2 * x2) := this
      _ = h1 * h2 * (x1 * x2) := by ring

theorem rounded.Within.div (l1 h1 x1 y1 l2 h2 x2 y2 : ℝ) (hl1 : 0 < l1) (hl2 : 0 < l2)
    (hx1 : 0 < x1) (hx2 : 0 < x2) (w1 : rounded.Within l1 h1 x1 y1)
    (w2 : rounded.Within l2 h2 x2 y2) :
    rounded.Within (l1 / h2) (h1 / l2) (x1 / x2) (y1 / y2) := by
  have hy1 := rounded.Within.pos l1 h1 x1 y1 hl1 hx1 w1
  have hy2 := rounded.Within.pos l2 h2 x2 y2 hl2 hx2 w2
  have hh2 : 0 < h2 := by
    by_contra hneg
    have : h2 * x2 ≤ 0 := mul_nonpos_of_nonpos_of_nonneg (not_lt.1 hneg) hx2.le
    linarith [w2.2]
  constructor
  · have := div_le_div₀ hy1.le w1.1 hy2 w2.2
    calc l1 / h2 * (x1 / x2) = l1 * x1 / (h2 * x2) := by field_simp
      _ ≤ y1 / y2 := this
  · have := div_le_div₀ (le_trans hy1.le w1.2) w1.2 (mul_pos hl2 hx2) w2.1
    calc y1 / y2 ≤ h1 * x1 / (l2 * x2) := this
      _ = h1 / l2 * (x1 / x2) := by field_simp

theorem rounded.Within.trans (l1 h1 l2 h2 x y z : ℝ) (hl2 : 0 ≤ l2) (hh2 : 0 ≤ h2)
    (w1 : rounded.Within l1 h1 x y) (w2 : rounded.Within l2 h2 y z) :
    rounded.Within (l1 * l2) (h1 * h2) x z := by
  constructor
  · calc l1 * l2 * x = l2 * (l1 * x) := by ring
      _ ≤ l2 * y := mul_le_mul_of_nonneg_left w1.1 hl2
      _ ≤ z := w2.1
  · calc z ≤ h2 * y := w2.2
      _ ≤ h2 * (h1 * x) := mul_le_mul_of_nonneg_left w1.2 hh2
      _ = h1 * h2 * x := by ring

theorem rounded.Within.weaken (lo hi lo2 hi2 x y : ℝ) (hx : 0 ≤ x) (hlo : lo2 ≤ lo)
    (hhi : hi ≤ hi2) (w : rounded.Within lo hi x y) : rounded.Within lo2 hi2 x y :=
  ⟨le_trans (mul_le_mul_of_nonneg_right hlo hx) w.1,
    le_trans w.2 (mul_le_mul_of_nonneg_right hhi hx)⟩

/-- The value that `M` takes the ceiling of, computed with the operations of `F`, is the exact
value up to a relative error of `2^-32`. -/
theorem rounded.M_arg_within (F : rounded.Float64) (n : Int) (p : ℝ) (hn : 0 < n)
    (hp0 : 0 < p) (hp1 : p < 1) :
    rounded.Within (1 - 1 / 2 ^ 32) (1 + 1 / 2 ^ 32)
      (-1 * (n : ℝ) * Real.log p / Real.log 2 ^ (2 : ℝ))
      (F.div (F.mul (F.mul (-1) (F.ofInt n)) (F.Log p)) (F.Pow (F.Log 2) 2)) := by
  have he := rounded.eps_pos
  have he1 := rounded.eps_lt_one
  have hlo : 0 < 1 - rounded.eps := by linarith
  have hhi : 0 < 1 + rounded.eps := by linarith
  have hN : (0 : ℝ) < n := by exact_mod_cast hn
  have hLp : 0 < -Real.log p := by linarith [Real.log_neg hp0 hp1]
  have hL2 := log_two_pos
  -- float64(n)
  have wa := rounded.near_within _ _ hN (F.ofInt_near n)
  have ha := rounded.Within.pos _ _ _ _ hlo hN wa
  -- -1 * float64(n)
  have wb0 := rounded.near_within_neg (-1 * F.ofInt n) _ (by linarith) (F.mul_near (-1) (F.ofInt n))
  rw [show -(-1 * F.ofInt n) = F.ofInt n by ring] at wb0
  have wb := rounded.Within.trans _ _ _ _ _ _ _ hlo.le hhi.le wa wb0
  have hb := rounded.Within.pos _ _ _ _ hlo ha wb0
  -- math.Log(p)
  have wc0 := rounded.near_within_neg _ _ (Real.log_neg hp0 hp1) (F.Log_near p hp0)
  have hc := rounded.Within.pos _ _ _ _ hlo hLp wc0
  -- the product
  have wbc := rounded.Within.mul _ _ _ _ _ _ _ _ (mul_pos hlo hlo) hlo hN hLp wb wc0
  have hbc : 0 < -F.mul (-1) (F.ofInt n) * -F.Log p := mul_pos hb hc
  have wd0 := rounded.near_within (F.mul (-1) (F.ofInt n) * F.Log p) _ (by nlinarith)
    (F.mul_near _ _)
  rw [show F.mul (-1) (F.ofInt n) * F.Log p = -F.mul (-1) (F.ofInt n) * -F.Log p by ring] at wd0
  have wd := rounded.Within.trans _ _ _ _ _ _ _ hlo.le hhi.le wbc wd0
  have hd := rounded.Within.pos _ _ _ _ hlo hbc wd0
  -- math.Pow(math.Log(2), 2)
  have wl := rounded.near_within _ _ hL2 (F.Log_near 2 (by norm_num))
  have hl := rounded.Within.pos _ _ _ _ hlo hL2 wl
  have wll := rounded.Within.mul _ _ _ _ _ _ _ _ hlo hlo hL2 hL2 wl wl
  have wq0 := rounded.near_within (F.Log 2 ^ (2 : ℝ)) _ (by positivity) (F.Pow_near _ 2 hl)
  rw [Real.rpow_two, sq] at wq0
  have wq := rounded.Within.trans _ _ _ _ _ _ _ hlo.le hhi.le wll wq0
  have hq := rounded.Within.pos _ _ _ _ hlo (mul_pos hl hl) wq0
  -- the quotient
  have wdq := rounded.Within.div _ _ _ _ _ _ _ _
    (mul_pos (mul_pos (mul_pos hlo hlo) hlo) hlo) (mul_pos (mul_pos hlo hlo) hlo)
    (mul_pos hN hLp) (mul_pos hL2 hL2) wd wq
  have wv0 := rounded.near_within _ _ (div_pos hd hq) (F.div_near _ _)
  have wv := rounded.Within.trans _ _ _ _ _ _ _ hlo.le hhi.le wdq wv0
  have hE : (n : ℝ) * -Real.log p / (Real.log 2 * Real.log 2) =
      -1 * (n : ℝ) * Real.log p / Real.log 2 ^ (2 : ℝ) := by
    rw [Real.rpow_two, sq]; ring
  rw [hE] at wv
  refine rounded.Within.weaken _ _ _ _ _ _ ?_ ?_ ?_ wv
  · rw [← hE]; positivity
  · norm_num [rounded.eps]
  · norm_num [rounded.eps]

/-- The value that `K` takes the ceiling of, computed with the operations of `F`, is the exact
value up to a relative error of `2^-32`. -/
theorem rounded.K_arg_within (F : rounded.Float64) (m n : Int) (hm : 0 < m) (hn : 0 < n) :
    rounded.Within (1 - 1 / 2 ^ 32) (1 + 1 / 2 ^ 32)
      ((m : ℝ) * Real.log 2 / (n : ℝ))
      (F.div (F.mul (F.ofInt m) (F.Log 2)) (F.ofInt n)) := by
  have he := rounded.eps_pos
  have he1 := rounded.eps_lt_one
  have hlo : 0 < 1 - rounded.eps := by linarith
  have hhi : 0 < 1 + rounded.eps := by linarith
  have hN : (0 : ℝ) < n := by exact_mod_cast hn
  have hMm : (0 : ℝ) < m := by exact_mod_cast hm
  have hL2 := log_two_pos
  have wm := rounded.near_within _ _ hMm (F.ofInt_near m)
  have hm' := rounded.Within.pos _ _ _ _ hlo hMm wm
  have wn := rounded.near_within _ _ hN (F.ofInt_near n)
  have hn' := rounded.Within.pos _ _ _ _ hlo hN wn
  have wl := rounded.near_within _ _ hL2 (F.Log_near 2 (by norm_num))
  have hl := rounded.Within.pos _ _ _ _ hlo hL2 wl
  have wml := rounded.Within.mul _ _ _ _ _ _ _ _ hlo hlo hMm hL2 wm wl
  have wt0 := rounded.near_within _ _ (mul_pos hm' hl) (F.mul_near (F.ofInt m) (F.Log 2))
  have wt := rounded.Within.trans _ _ _ _ _ _ _ hlo.le hhi.le wml wt0
  have ht := rounded.Within.pos _ _ _ _ hlo (mul_pos hm' hl) wt0
  have wtn := rounded.Within.div _ _ _ _ _ _ _ _ (mul_pos (mul_pos hlo hlo) hlo) hlo
    (mul_pos hMm hL2) hN wt wn
  have ww0 := rounded.near_within _ _ (div_pos ht hn') (F.div_near _ _)
  have ww := rounded.Within.trans _ _ _ _ _ _ _ hlo.le hhi.le wtn ww0
  refine rounded.Within.weaken _ _ _ _ _ _ (by positivity) ?_ ?_ ww
  · norm_num [rounded.eps]
  · norm_num [rounded.eps]

theorem rounded.M_in_range (F : rounded.Float64) (n : Int) (p : ℝ) (hn : 0 < n) (hp0 : 0 < p)
    (hp1 : p < 1) (hfit : -1 * (n : ℝ) * Real.log p / Real.log 2 ^ (2 : ℝ) ≤ 2 ^ 31 - 2) :
    1 ≤ rounded.M F n p ∧ rounded.M F n p < 2 ^ 31 := by
  have hE := M_arg_pos n p hn hp0 hp1
  have w := rounded.M_arg_within F n p hn hp0 hp1
  have hv := rounded.Within.pos _ _ _ _ (by norm_num) hE w
  have hup : F.div (F.mul (F.mul (-1) (F.ofInt n)) (F.Log p)) (F.Pow (F.Log 2) 2) ≤
      2 ^ 31 - 1 := by
    have h2 := w.2
    nlinarith
  have h1 : 0 < ⌈F.div (F.mul (F.mul (-1) (F.ofInt n)) (F.Log p)) (F.Pow (F.Log 2) 2)⌉ :=
    Int.ceil_pos.2 hv
  have h2 : ⌈F.div (F.mul (F.mul (-1) (F.ofInt n)) (F.Log p)) (F.Pow (F.Log 2) 2)⌉ ≤
      2 ^ 31 - 1 := by
    apply Int.ceil_le.2
    have h := hup
    norm_num at h ⊢
    exact h
  have e : rounded.M F n p =
      ⌈F.div (F.mul (F.mul (-1) (F.ofInt n)) (F.Log p)) (F.Pow (F.Log 2) 2)⌉ :=
    int32OfFloat_Ceil _ (by omega) (by omega)
  rw [e]
  exact ⟨by omega, by omega⟩

theorem rounded.K_ge_one (F : rounded.Float64) (m n : Int) (hm : 1 ≤ m) (hm32 : m < 2 ^ 31)
    (hn : 0 < n) : 1 ≤ rounded.K F m n := by
  have hn' : (1 : ℝ) ≤ n := by exact_mod_cast hn
  have hm' : (1 : ℝ) ≤ m := by exact_mod_cast hm
  have hl := log_two_pos
  have hu := Real.log_two_lt_d9
  have hE : 0 < (m : ℝ) * Real.log 2 / (n : ℝ) := by positivity
  have hEle : (m : ℝ) * Real.log 2 / (n : ℝ) ≤ (m : ℝ) * Real.log 2 := by
    rw [div_le_iff₀ (by linarith)]
    nlinarith [mul_nonneg (mul_nonneg (by linarith : (0 : ℝ) ≤ m) hl.le)
      (by linarith : (0 : ℝ) ≤ (n : ℝ) - 1)]
  have w := rounded.K_arg_within F m n (by omega) hn
  have hv := rounded.Within.pos _ _ _ _ (by norm_num) hE w
  have hup : F.div (F.mul (F.ofInt m) (F.Log 2)) (F.ofInt n) ≤ m := by
    have h2 := w.2
    nlinarith
  have h1 : 0 < ⌈F.div (F.mul (F.ofInt m) (F.Log 2)) (F.ofInt n)⌉ := Int.ceil_pos.2 hv
  have h2 : ⌈F.div (F.mul (F.ofInt m) (F.Log 2)) (F.ofInt n)⌉ ≤ m := Int.ceil_le.2 hup
  have e : rounded.K F m n = ⌈F.div (F.mul (F.ofInt m) (F.Log 2)) (F.ofInt n)⌉.toNat :=
    uint32OfFloat_Ceil _ (by omega) (by omega)
  rw [e]
  omega

theorem rounded.New_returns (F : rounded.Float64) (b0 : Bloom) (n : Int) (p : ℝ)
    (h : 0 ≤ rounded.M F n p) :
    rounded.New F b0 n p =
      .ok { M := rounded.M F n p, K := rounded.K F (rounded.M F n p) n,
            Bitset := List.replicate (rounded.M F n p).toNat false,
            Hashes := (List.range (rounded.K F (rounded.M F n p) n)).map New32WithSeed } := by
  simp only [rounded.New]
  rw [if_neg (by omega)]

theorem rounded.New_stops (F : rounded.Float64) (b0 : Bloom) (n : Int) (p : ℝ)
    (h : rounded.M F n p < 0) :
    rounded.New F b0 n p = .error .makesliceLenOutOfRange := by
  simp only [rounded.New]
  rw [if_pos h]

theorem rounded.exact_eq (b0 : Bloom) (m n : Int) (p : ℝ) :
    rounded.M rounded.Float64.exact n p = bloomfilter.M n p ∧
      rounded.K rounded.Float64.exact m n = bloomfilter.K m n ∧
      rounded.New rounded.Float64.exact b0 n p = bloomfilter.New b0 n p :=
  ⟨rfl, rfl, rfl⟩

theorem M_arg_600000000_p015 :
    2200000000 ≤ -1 * ((600000000 : Int) : ℝ) * Real.log 0.15 / Real.log 2 ^ (2 : ℝ) := by
  have hl := log_two_pos
  have hu := Real.log_two_lt_d9
  have h1 := log_20_3_lower
  have hsq : (0 : ℝ) < Real.log 2 ^ 2 := by positivity
  rw [Real.rpow_two, log_one_over_p015, le_div_iff₀ hsq]
  push_cast
  nlinarith

theorem rounded.M_overflows_600000000 (F : rounded.Float64) :
    rounded.M F 600000000 0.15 = -2147483648 := by
  have hE := M_arg_600000000_p015
  have w := rounded.M_arg_within F 600000000 0.15 (by norm_num) (by norm_num) (by norm_num)
  have hx : ((2 ^ 31 - 1 : Int) : ℝ) <
      F.div (F.mul (F.mul (-1) (F.ofInt 600000000)) (F.Log 0.15)) (F.Pow (F.Log 2) 2) := by
    have h1 := w.1
    push_cast
    nlinarith
  have hc := Int.lt_ceil.2 hx
  have e := int32OfFloat_Ceil_big
    (F.div (F.mul (F.mul (-1) (F.ofInt 600000000)) (F.Log 0.15)) (F.Pow (F.Log 2) 2))
    (by omega)
  unfold rounded.M
  rw [e]
  norm_num

/-- C5, amended. Whatever the rounding of the `float64` operations (within their accuracy): for
`n > 0` and `0 < p < 1` such that the exact bit count `-n ln p / (ln 2)^2` does not exceed
`2^31 - 2` (so that the value computed in `float64`, and its ceiling, stay within `int32`),
`New(n, p)` returns normally with `M = M(n, p)`, `K = K(M, n)`, `M ≥ 1` and `K ≥ 1`. -/
theorem New_sizes_pos (F : rounded.Float64) (b0 : Bloom) (n : Int) (p : ℝ) (hn : 0 < n)
    (hp0 : 0 < p) (hp1 : p < 1)
    (hfit : -1 * (n : ℝ) * Real.log p / Real.log 2 ^ (2 : ℝ) ≤ 2 ^ 31 - 2) :
    ∃ b, rounded.New F b0 n p = .ok b ∧ b.M = rounded.M F n p ∧
      b.K = rounded.K F (rounded.M F n p) n ∧ 1 ≤ b.M ∧ 1 ≤ b.K := by
  obtain ⟨hM1, hM32⟩ := rounded.M_in_range F n p hn hp0 hp1 hfit
  have hK1 := rounded.K_ge_one F (rounded.M F n p) n hM1 hM32 hn
  exact ⟨_, rounded.New_returns F b0 n p (by omega), rfl, rfl, hM1, hK1⟩

/-- C5, the claim as stated fails: for `n = 600000000` and `p = 0.15` the bit count, about
`2.37e9`, exceeds the range of `int32` whatever the rounding; `M(n, p)` is then `-2^31` and
`New` stops in `make`, so no filter with `M ≥ 1` and `K ≥ 1` results. -/
theorem New_overflow_600000000 :
    (0 : Int) < 600000000 ∧ (0 : ℝ) < 0.15 ∧ (0.15 : ℝ) < 1 ∧
      ∀ F : rounded.Float64,
        rounded.M F 600000000 0.15 = -2147483648 ∧
        rounded.New F Bloom.zero 600000000 0.15 = .error .makesliceLenOutOfRange ∧
        ¬ ∃ b, rounded.New F Bloom.zero 600000000 0.15 = .ok b ∧ 1 ≤ b.M ∧ 1 ≤ b.K := by
  refine ⟨by norm_num, by norm_num, by norm_num, ?_⟩
  intro F
  have hM := rounded.M_overflows_600000000 F
  have hNew := rounded.New_stops F Bloom.zero 600000000 0.15 (by rw [hM]; norm_num)
  refine ⟨hM, hNew, ?_⟩
  rintro ⟨b, hb, _⟩
  rw [hNew] at hb
  cases hb

/-- C13, amended. Whatever the rounding of the `float64` operations (within their accuracy):
for `n > 0` and `0 < p < 1` such that the exact bit count `-n ln p / (ln 2)^2` does not exceed
`2^31 - 2`, `New(n, p)` returns a filter whose bit array has exactly `M` entries, all false,
and which has `K ≥ 1` hash functions; `Contains(w)` returns false on it for every word. -/
theorem New_fresh_empty (F : rounded.Float64) (b0 : Bloom) (n : Int) (p : ℝ) (hn : 0 < n)
    (hp0 : 0 < p) (hp1 : p < 1)
    (hfit : -1 * (n : ℝ) * Real.log p / Real.log 2 ^ (2 : ℝ) ≤ 2 ^ 31 - 2) :
    ∃ b, rounded.New F b0 n p = .ok b ∧ (b.Bitset.length : Int) = b.M ∧
      (∀ i : Nat, (i : Int) < b.M → b.Bitset[i]? = some false) ∧ 1 ≤ b.K ∧
      b.Hashes.length = b.K ∧ ∀ w : List Byte, ∃ g, Contains b w = .ok (false, g) := by
  obtain ⟨hM1, hM32⟩ := rounded.M_in_range F n p hn hp0 hp1 hfit
  have hK1 := rounded.K_ge_one F (rounded.M F n p) n hM1 hM32 hn
  generalize hm : rounded.M F n p = m at hM1 hM32 hK1
  generalize hk : rounded.K F m n = k at hK1
  have hl : ((List.replicate m.toNat false).length : Int) = m := by
    simp only [List.length_replicate]; omega
  have hNew : rounded.New F b0 n p =
      .ok { M := m, K := k, Bitset := List.replicate m.toNat false,
            Hashes := (List.range k).map New32WithSeed } := by
    rw [rounded.New_returns F b0 n p (by omega), hm, hk]
  refine ⟨_, hNew, hl, ?_, hK1, by simp, ?_⟩
  · intro i hi
    have hi' : (i : Int) < m := hi
    exact replicate_false_getElem? _ i (by omega)
  · intro w
    obtain ⟨hmz, hl2⟩ := good_of_valid
      { M := m, K := k, Bitset := List.replicate m.toNat false,
        Hashes := (List.range k).map New32WithSeed } hM1 hM32 hl
    obtain ⟨r, hs2, hc, hiff, _, _⟩ := Contains.loop_spec m w hmz
      (List.replicate m.toNat false) hl2 ((List.range k).map New32WithSeed)
    have hr : r = false := by
      cases r with
      | false => rfl
      | true =>
        have hall := hiff.1 rfl 0 (New32WithSeed 0) (by
          rw [List.getElem?_map, List.getElem?_range (by omega)]; rfl)
        rw [replicate_false_getElem? _ _ (by
          have := idxOf_lt m w (New32WithSeed 0) hmz
          rw [uint32_of_int32 m (by omega) hM32] at this
          exact this)] at hall
        cases hall
    subst hr
    exact ⟨{ M := m, K := k, Bitset := List.replicate m.toNat false, Hashes := hs2 },
      by simp only [Contains, hc]⟩

/-- C13, the claim as stated fails: for `n = 600000000` and `p = 0.15` the bit count exceeds
the range of `int32` whatever the rounding, and `New` stops in `make`: there is no filter after
the call. -/
theorem New_no_fresh_filter_600000000 :
    (0 : Int) < 600000000 ∧ (0 : ℝ) < 0.15 ∧ (0.15 : ℝ) < 1 ∧
      ∀ F : rounded.Float64,
        ¬ ∃ b, rounded.New F Bloom.zero 600000000 0.15 = .ok b ∧
          (b.Bitset.length : Int) = b.M := by
  refine ⟨by norm_num, by norm_num, by norm_num, ?_⟩
  rintro F ⟨b, hb, _⟩
  rw [rounded.New_stops F Bloom.zero 600000000 0.15
    (by rw [rounded.M_overflows_600000000 F]; norm_num)] at hb
  cases hb

theorem New_sizes_pos_witness :
    ((0 : Int) < 3 ∧ (0 : ℝ) < 0.15 ∧ (0.15 : ℝ) < 1 ∧
        -1 * ((3 : Int) : ℝ) * Real.log 0.15 / Real.log 2 ^ (2 : ℝ) ≤ 2 ^ 31 - 2) ∧
      ∃ b, rounded.New rounded.Float64.exact Bloom.zero 3 0.15 = .ok b ∧
        b.M = rounded.M rounded.Float64.exact 3 0.15 ∧
        b.K = rounded.K rounded.Float64.exact (rounded.M rounded.Float64.exact 3 0.15) 3 ∧
        1 ≤ b.M ∧ 1 ≤ b.K :=
  ⟨⟨by norm_num, by norm_num, by norm_num, le_trans M_arg_3_p015.2 (by norm_num)⟩,
    New_sizes_pos rounded.Float64.exact Bloom.zero 3 0.15 (by norm_num) (by norm_num)
      (by norm_num) (le_trans M_arg_3_p015.2 (by norm_num))⟩

theorem New_fresh_empty_witness :
    ((0 : Int) < 3 ∧ (0 : ℝ) < 0.15 ∧ (0.15 : ℝ) < 1 ∧
        -1 * ((3 : Int) : ℝ) * Real.log 0.15 / Real.log 2 ^ (2 : ℝ) ≤ 2 ^ 31 - 2) ∧
      ∃ b, rounded.New rounded.Float64.exact Bloom.zero 3 0.15 = .ok b ∧
        (b.Bitset.length : Int) = b.M ∧
        (∀ i : Nat, (i : Int) < b.M → b.Bitset[i]? = some false) ∧ 1 ≤ b.K ∧
        b.Hashes.length = b.K ∧ ∀ w : List Byte, ∃ g, Contains b w = .ok (false, g) :=
  ⟨⟨by norm_num, by norm_num, by norm_num, le_trans M_arg_3_p015.2 (by norm_num)⟩,
    New_fresh_empty rounded.Float64.exact Bloom.zero 3 0.15 (by norm_num) (by norm_num)
      (by norm_num) (le_trans M_arg_3_p015.2 (by norm_num))⟩

end bloomfilter
